import Mathlib

/-!
# MultipleRandomDimensionSelect

A shallow embedding of `mlpack::tree::MultipleRandomDimensionSelect`
(`src/mlpack/methods/decision_tree/multiple_random_dimension_select.hpp`)
and a verification of its iteration contract.

Modelling conventions.

* `size_t` is 64 bits wide.  Values of type `size_t` are natural numbers; the
  two additions of the class that can wrap (`numDimensions + 1`, `++i`) are
  reduced modulo `2 ^ 64` explicitly.
* `arma::Col<size_t>` is a list.  `operator[]` performs no bounds check, so an
  access outside the buffer is undefined behaviour; the model reports it as
  `Fault.outOfBounds` instead of inventing a value.
* `math::RandInt` is an external random source.  A run of `Begin` is driven by
  the list of the successive results of `RandInt(dimensions)`; when the list is
  used up before the rejection loop has accepted a value the run reports
  `Fault.starved` (the loop needs more draws than were supplied).
* `(size_t) std::sqrt(dimensions)` goes through IEEE-754 binary64: the operand
  is converted to `double` (round to nearest, ties to even), the square root is
  correctly rounded, and the conversion back truncates.  All three steps are
  computed exactly on natural numbers.
* The loop that drives the sampler belongs to the tree builder, not to the
  class; `drainFrom` and `idiom` follow the words of the specification.
* `Reachable` collects the states the public interface can produce; `Next` is
  only claimed to behave in those.
-/

namespace mlpack.tree

/-- The value `std::numeric_limits<size_t>::max()`. -/
def SIZE_MAX : Nat := 2 ^ 64 - 1

/-- The ways a run of the model can fail to return. -/
inductive Fault where
  | outOfBounds
  | starved
  deriving DecidableEq, Repr

/-- The conversion of a `size_t` to `double`: integers below `2 ^ 53` are kept,
larger ones are rounded to 53 significant bits, to nearest, ties to even. -/
def toDouble (n : Nat) : Nat :=
  if n < 2 ^ 53 then n
  else
    let shift := Nat.log 2 n - 52
    let q := n / 2 ^ shift
    let r := n % 2 ^ shift
    let half := 2 ^ (shift - 1)
    let q' := if r > half ∨ (r = half ∧ q % 2 = 1) then q + 1 else q
    q' * 2 ^ shift

/-- The expression `(size_t) std::sqrt(dimensions)`.  With `x` the operand as a
`double` and `k = ⌊log₂ x⌋ / 2`, the correctly rounded root is `m * 2 ^ (k - 52)`
where `m` is the integer nearest to `√(x * 4 ^ (52 - k))`; a square root of an
integer is never half way between two integers, so there are no ties.  The
conversion to `size_t` drops the fraction. -/
def sqrtTrunc (dimensions : Nat) : Nat :=
  let x := toDouble dimensions
  let k := Nat.log 2 x / 2
  let t := 52 - k
  let X := x * 4 ^ t
  let s := Nat.sqrt X
  let m := if X - s * s ≤ s then s else s + 1
  m / 2 ^ t

/-- The private members of the class. -/
structure MultipleRandomDimensionSelect where
  numDimensions : Nat
  values : List Nat
  i : Nat
  dimensions : Nat
  deriving DecidableEq, Repr

/-- The read `values[j]`. -/
def readAt (values : List Nat) (j : Nat) : Except Fault Nat :=
  match values.get? j with
  | some v => .ok v
  | none => .error .outOfBounds

/-- The write `values[j] = v`. -/
def writeAt (values : List Nat) (j : Nat) (v : Nat) : Except Fault (List Nat) :=
  if j < values.length then .ok (values.set j v) else .error .outOfBounds

/-- The call `values.set_size(n)`: the buffer gets `n` slots whose contents are
unspecified.  The model keeps whatever the old buffer held there. -/
def set_size (values : List Nat) (n : Nat) : List Nat :=
  (values ++ List.replicate n 0).take n

/-- The loop `for (j = ...; j < i; ++j) if (values[j] == value) { unique = false; break; }`
with `n` iterations left, started with `unique = true`; the result is the final
`unique`. -/
def uniqueCheck (values : List Nat) (value : Nat) : Nat → Nat → Except Fault Bool
  | 0, _ => .ok true
  | n + 1, j =>
    match readAt values j with
    | .error e => .error e
    | .ok v => if v = value then .ok false else uniqueCheck values value n (j + 1)

/-- The loop `while (!unique)` for slot `i`: each round takes the next result of
`math::RandInt(dimensions)`; the accepted value and the unused draws are
returned. -/
def drawUnique (values : List Nat) (i : Nat) : List Nat → Except Fault (Nat × List Nat)
  | [] => .error .starved
  | value :: rest =>
    match uniqueCheck values value i 0 with
    | .error e => .error e
    | .ok true => .ok (value, rest)
    | .ok false => drawUnique values i rest

/-- The loop `for (size_t i = ...; i < numDimensions; ++i)` with `n` iterations
left. -/
def fillValues (values : List Nat) : Nat → Nat → List Nat → Except Fault (List Nat × List Nat)
  | 0, _, draws => .ok (values, draws)
  | n + 1, i, draws =>
    match drawUnique values i draws with
    | .error e => .error e
    | .ok (value, rest) =>
      match writeAt values i value with
      | .error e => .error e
      | .ok values' => fillValues values' n (i + 1) rest

/-- The size `Begin` settles on: the stored size, replaced by the square-root
heuristic when it is `0` or larger than `dimensions`. -/
def effectiveSize (numDimensions dimensions : Nat) : Nat :=
  if numDimensions = 0 ∨ numDimensions > dimensions then sqrtTrunc dimensions
  else numDimensions

/-- The values a rejection-sampling run accepts: the first `n` draws that are
neither in `seen` nor accepted earlier, with the draws left over.  `none` when
the draws run out first.  A proof device: the loops of `Begin` are shown to
compute it. -/
def firstDistinct (seen : List Nat) : Nat → List Nat → Option (List Nat × List Nat)
  | 0, draws => some ([], draws)
  | _ + 1, [] => none
  | n + 1, x :: draws =>
    if x ∈ seen then firstDistinct seen (n + 1) draws
    else (firstDistinct (seen ++ [x]) n draws).map fun p => (x :: p.1, p.2)

namespace MultipleRandomDimensionSelect

/-- The constructor: `numDimensions` is stored, `dimensions` is `0`, `values` is
empty; the member `i` is not initialised, `cursor` is what it happens to hold. -/
def construct (numDimensions : Nat) (cursor : Nat) : MultipleRandomDimensionSelect :=
  { numDimensions := numDimensions, values := [], i := cursor, dimensions := 0 }

/-- The method `Begin`, run on the given results of `math::RandInt(dimensions)`.
It returns the first index, the new state and the draws it did not use. -/
def Begin (s : MultipleRandomDimensionSelect) (draws : List Nat) :
    Except Fault (Nat × MultipleRandomDimensionSelect × List Nat) :=
  let numDimensions := effectiveSize s.numDimensions s.dimensions
  let values := set_size s.values ((numDimensions + 1) % 2 ^ 64)
  match fillValues values numDimensions 0 draws with
  | .error e => .error e
  | .ok (values, rest) =>
    match writeAt values numDimensions SIZE_MAX with
    | .error e => .error e
    | .ok values =>
      match readAt values 0 with
      | .error e => .error e
      | .ok first =>
        .ok (first, { numDimensions := numDimensions, values := values, i := 0,
                      dimensions := s.dimensions }, rest)

/-- The method `End`: `size_t(-1)`. -/
def End (_s : MultipleRandomDimensionSelect) : Nat :=
  ((-1 : Int) % 2 ^ 64).toNat

/-- The method `Next`: `return values[++i]`. -/
def Next (s : MultipleRandomDimensionSelect) :
    Except Fault (Nat × MultipleRandomDimensionSelect) :=
  let i := (s.i + 1) % 2 ^ 64
  match readAt s.values i with
  | .error e => .error e
  | .ok v => .ok (v, { s with i := i })

/-- The results of `k` successive calls of `Next`, in order, and the state they
leave. -/
def nexts : Nat → MultipleRandomDimensionSelect →
    Except Fault (List Nat × MultipleRandomDimensionSelect)
  | 0, s => .ok ([], s)
  | k + 1, s =>
    match Next s with
    | .error e => .error e
    | .ok (v, s1) =>
      match nexts k s1 with
      | .error e => .error e
      | .ok (vs, s2) => .ok (v :: vs, s2)

/-- The const accessor `Dimensions()`. -/
def Dimensions (s : MultipleRandomDimensionSelect) : Nat :=
  s.dimensions

/-- An assignment through the reference returned by the non-const `Dimensions()`. -/
def setDimensions (s : MultipleRandomDimensionSelect) (d : Nat) : MultipleRandomDimensionSelect :=
  { s with dimensions := d }

end MultipleRandomDimensionSelect

/-! Sample runs: the three scenarios of the specification. -/

/-- Scenario A: sixteen dimensions, automatic size. -/
def scenarioA : MultipleRandomDimensionSelect :=
  MultipleRandomDimensionSelect.setDimensions (MultipleRandomDimensionSelect.construct 0 7) 16

/-- Draws for scenario A, with repetitions. -/
def drawsA : List Nat := [3, 3, 7, 3, 7, 1, 12, 5]

/-- The state `Begin` leaves in scenario A. -/
def afterA : MultipleRandomDimensionSelect :=
  { numDimensions := 4, values := [3, 7, 1, 12, SIZE_MAX], i := 0, dimensions := 16 }

/-- Scenario B: ten dimensions, twenty requested. -/
def scenarioB : MultipleRandomDimensionSelect :=
  MultipleRandomDimensionSelect.setDimensions (MultipleRandomDimensionSelect.construct 20 7) 10

/-- Draws for scenario B, with repetitions. -/
def drawsB : List Nat := [3, 3, 7, 3, 7, 1, 9, 5]

/-- The state `Begin` leaves in scenario B. -/
def afterB : MultipleRandomDimensionSelect :=
  { numDimensions := 3, values := [3, 7, 1, SIZE_MAX], i := 0, dimensions := 10 }

/-- Scenario C: five dimensions, five requested. -/
def scenarioC : MultipleRandomDimensionSelect :=
  MultipleRandomDimensionSelect.setDimensions (MultipleRandomDimensionSelect.construct 5 7) 5

/-- Draws for scenario C, with repetitions. -/
def drawsC : List Nat := [3, 3, 4, 3, 4, 1, 0, 0, 2, 4]

/-- The state `Begin` leaves in scenario C. -/
def afterC : MultipleRandomDimensionSelect :=
  { numDimensions := 5, values := [3, 4, 1, 0, 2, SIZE_MAX], i := 0, dimensions := 5 }

/-- Draws for a second `Begin`, made after scenario A with the dimension count
raised to one hundred. -/
def drawsD : List Nat := [5, 20, 5, 31, 47, 8, 99, 50, 61, 72, 83, 94]

/-- The state that second `Begin` leaves. -/
def afterD : MultipleRandomDimensionSelect :=
  { numDimensions := 4, values := [5, 20, 31, 47, SIZE_MAX], i := 0, dimensions := 100 }

/-- The start of scenario A with a used buffer and a moved cursor. -/
def scenarioA_used : MultipleRandomDimensionSelect :=
  { numDimensions := 0, values := [9, 9, 2, 9, 9, 9, 4], i := 3, dimensions := 16 }

/-- The number of values the specification promises for requested size `r` and
`d` dimensions: `r` if `0 < r ≤ d`, else `⌊√d⌋`. -/
def specCount (r d : Nat) : Nat :=
  if 0 < r ∧ r ≤ d then r else Nat.sqrt d

/-- Modelled from the spec: the loop of the caller, which is not part of the
class.  The specification words it as "call `Begin()`, process the returned
value, then repeatedly call `Next()` and process each returned value until a
returned value equals `End()`".  `v` is the value returned last.  The result
lists the values processed, the cursor after each call of `Next` (the index
that call read), and the final state; it is `none` when `fuel` rounds did not
reach the sentinel. -/
def drainFrom : Nat → Nat → MultipleRandomDimensionSelect →
    Option (Except Fault (List Nat × List Nat × MultipleRandomDimensionSelect))
  | 0, _, _ => none
  | fuel + 1, v, s =>
    if v = MultipleRandomDimensionSelect.End s then some (.ok ([], [], s))
    else
      match MultipleRandomDimensionSelect.Next s with
      | .error e => some (.error e)
      | .ok (v', s') =>
        match drainFrom fuel v' s' with
        | none => none
        | some (.error e) => some (.error e)
        | some (.ok (vs, cursors, t)) => some (.ok (v :: vs, s'.i :: cursors, t))

/-- Modelled from the spec: the whole idiom of the caller, `Begin` followed by
the loop over `Next`. -/
def idiom (fuel : Nat) (s : MultipleRandomDimensionSelect) (draws : List Nat) :
    Option (Except Fault (List Nat × List Nat × MultipleRandomDimensionSelect)) :=
  match MultipleRandomDimensionSelect.Begin s draws with
  | .error e => some (.error e)
  | .ok (first, s', _) => drainFrom fuel first s'

/-- The values of `draws` that are not in `seen`, each kept the first time it
occurs, in the order of these first occurrences. -/
def firstOccurrences (seen : List Nat) : List Nat → List Nat
  | [] => []
  | x :: xs =>
    if x ∈ seen then firstOccurrences seen xs else x :: firstOccurrences (seen ++ [x]) xs

/-- The specification's "distinct values of the draw stream, in order of first
appearance". -/
def distinctInOrder (draws : List Nat) : List Nat :=
  firstOccurrences [] draws

/-- The `m` results a random source, given as the stream of its results, hands
out from position `k` on. -/
def window (stream : Nat → Nat) : Nat → Nat → List Nat
  | _, 0 => []
  | k, m + 1 => stream k :: window stream (k + 1) m

/-- A random source that cycles through `0, 1, ..., 15`. -/
def cyclicStream (k : Nat) : Nat :=
  k % 16

/-- The largest configuration a `size_t` allows: `2 ^ 64 - 1` dimensions, all of
them requested. -/
def scenarioWrap : MultipleRandomDimensionSelect :=
  MultipleRandomDimensionSelect.setDimensions
    (MultipleRandomDimensionSelect.construct (2 ^ 64 - 1) 0) (2 ^ 64 - 1)

/-- A random source that cycles through `0, 1, ..., 2 ^ 64 - 2`. -/
def wideStream (k : Nat) : Nat :=
  k % (2 ^ 64 - 1)

/-- The states a sampler can be in: it is constructed, and then the owner writes
the dimension count and calls `Begin` and `Next`; only calls that return lead
on. -/
inductive Reachable : MultipleRandomDimensionSelect → Prop where
  | construct (numDimensions cursor : Nat) :
      Reachable (MultipleRandomDimensionSelect.construct numDimensions cursor)
  | setDimensions {s : MultipleRandomDimensionSelect} (d : Nat) :
      Reachable s → Reachable (MultipleRandomDimensionSelect.setDimensions s d)
  | Begin {s s' : MultipleRandomDimensionSelect} {draws rest : List Nat} {first : Nat} :
      Reachable s → MultipleRandomDimensionSelect.Begin s draws = .ok (first, s', rest) →
      Reachable s'
  | Next {s s' : MultipleRandomDimensionSelect} {v : Nat} :
      Reachable s → MultipleRandomDimensionSelect.Next s = .ok (v, s') → Reachable s'

end mlpack.tree

namespace mlpack.tree

/-! ## The truncated square root -/

theorem toDouble_of_lt {n : Nat} (h : n < 2 ^ 53) : toDouble n = n := by
  unfold toDouble
  rw [if_pos h]

/-- The value of `sqrtTrunc` once the conversion, the exponent and the integer
root have been evaluated. -/
theorem sqrtTrunc_eval {d x k s : Nat} (hx : toDouble d = x) (hk : Nat.log 2 x = k)
    (hs : Nat.sqrt (x * 4 ^ (52 - k / 2)) = s) :
    sqrtTrunc d =
      (if x * 4 ^ (52 - k / 2) - s * s ≤ s then s else s + 1) / 2 ^ (52 - k / 2) := by
  subst hx hk hs
  rfl

theorem toDouble_le {n : Nat} (h : n < 2 ^ 64) : toDouble n ≤ 2 ^ 64 := by
  unfold toDouble
  split
  · omega
  · rename_i h53
    have h53' : 2 ^ 53 ≤ n := Nat.le_of_not_lt h53
    have hn0 : n ≠ 0 := by
      intro h0
      rw [h0] at h53'
      norm_num at h53'
    have hlo : 53 ≤ Nat.log 2 n := by
      rw [← Nat.log_pow (by norm_num : 1 < 2) 53]
      exact Nat.log_mono_right h53'
    have hhi : Nat.log 2 n < 64 := Nat.log_lt_of_lt_pow hn0 h
    have hlt : n < 2 ^ (Nat.log 2 n).succ := Nat.lt_pow_succ_log_self (by norm_num) n
    obtain ⟨c, hc⟩ : ∃ c, Nat.log 2 n - 52 = c := ⟨_, rfl⟩
    have hc1 : Nat.log 2 n = c + 52 := by omega
    have hc2 : c ≤ 11 := by omega
    simp only [hc]
    rw [hc1, Nat.succ_eq_add_one, show c + 52 + 1 = 53 + c by omega, pow_add] at hlt
    have hq : n / 2 ^ c < 2 ^ 53 := by
      rw [Nat.div_lt_iff_lt_mul (by positivity)]
      exact hlt
    have hpow : 2 ^ c ≤ 2 ^ 11 := Nat.pow_le_pow_right (by norm_num) hc2
    have hq' : (if n % 2 ^ c > 2 ^ (c - 1) ∨ (n % 2 ^ c = 2 ^ (c - 1) ∧ n / 2 ^ c % 2 = 1)
        then n / 2 ^ c + 1 else n / 2 ^ c) ≤ 2 ^ 53 := by
      split <;> omega
    calc _ ≤ 2 ^ 53 * 2 ^ 11 := Nat.mul_le_mul hq' hpow
      _ = 2 ^ 64 := by norm_num

/-- The result of `(size_t) std::sqrt(dimensions)` never exceeds `2 ^ 32`. -/
theorem sqrtTrunc_le_pow {d : Nat} (h : d < 2 ^ 64) : sqrtTrunc d ≤ 2 ^ 32 := by
  have hx : toDouble d ≤ 2 ^ 64 := toDouble_le h
  unfold sqrtTrunc
  simp only
  generalize toDouble d = x at hx
  have hk : Nat.log 2 x / 2 ≤ 32 := by
    have : Nat.log 2 x ≤ Nat.log 2 (2 ^ 64) := Nat.log_mono_right hx
    rw [Nat.log_pow (by norm_num)] at this
    omega
  obtain ⟨t, ht⟩ : ∃ t, 52 - Nat.log 2 x / 2 = t := ⟨_, rfl⟩
  have ht20 : 20 ≤ t := by omega
  rw [ht]
  have hP : 2 ^ 20 ≤ 2 ^ t := Nat.pow_le_pow_right (by norm_num) ht20
  have h4 : (4 : Nat) ^ t = 2 ^ t * 2 ^ t := by
    rw [← mul_pow]
    norm_num
  generalize 2 ^ t = P at hP h4
  rw [h4]
  have hs : Nat.sqrt (x * (P * P)) ≤ 2 ^ 32 * P := by
    apply Nat.le_of_lt_succ
    rw [Nat.sqrt_lt]
    have : x * (P * P) ≤ 2 ^ 64 * (P * P) := Nat.mul_le_mul_right _ hx
    nlinarith
  generalize Nat.sqrt (x * (P * P)) = s at hs
  have hm : (if x * (P * P) - s * s ≤ s then s else s + 1) ≤ 2 ^ 32 * P + 1 := by
    split <;> omega
  apply Nat.le_of_lt_succ
  rw [Nat.div_lt_iff_lt_mul (by omega)]
  refine lt_of_le_of_lt hm ?_
  rw [Nat.succ_mul]
  omega

/-- Below `2 ^ 52` the expression `(size_t) std::sqrt(dimensions)` is the integer
square root. -/
theorem sqrtTrunc_eq_sqrt {d : Nat} (h : d < 2 ^ 52) : sqrtTrunc d = Nat.sqrt d := by
  unfold sqrtTrunc
  simp only
  rw [toDouble_of_lt (by omega)]
  have hk : Nat.log 2 d / 2 ≤ 25 := by
    by_cases h0 : d = 0
    · subst h0
      simp
    · have := Nat.log_lt_of_lt_pow h0 h
      omega
  obtain ⟨t, ht⟩ : ∃ t, 52 - Nat.log 2 d / 2 = t := ⟨_, rfl⟩
  have ht27 : 27 ≤ t := by omega
  rw [ht]
  have hP : 2 ^ 27 ≤ 2 ^ t := Nat.pow_le_pow_right (by norm_num) ht27
  have h4 : (4 : Nat) ^ t = 2 ^ t * 2 ^ t := by
    rw [← mul_pow]
    norm_num
  generalize 2 ^ t = P at hP h4
  rw [h4]
  have hn1 : Nat.sqrt d * Nat.sqrt d ≤ d := Nat.sqrt_le d
  have hn2 : d < (Nat.sqrt d + 1) * (Nat.sqrt d + 1) := Nat.lt_succ_sqrt d
  have hn3 : Nat.sqrt d < 2 ^ 26 := by
    rw [Nat.sqrt_lt]
    omega
  generalize Nat.sqrt d = n at hn1 hn2 hn3
  have hs1 : n * P ≤ Nat.sqrt (d * (P * P)) := by
    rw [Nat.le_sqrt]
    calc n * P * (n * P) = n * n * (P * P) := by ring
      _ ≤ d * (P * P) := Nat.mul_le_mul_right _ hn1
  have hs2 : Nat.sqrt (d * (P * P)) < (n + 1) * P := by
    rw [Nat.sqrt_lt]
    calc d * (P * P) < (n + 1) * (n + 1) * (P * P) :=
          Nat.mul_lt_mul_of_pos_right hn2 (by positivity)
      _ = (n + 1) * P * ((n + 1) * P) := by ring
  have hs3 : Nat.sqrt (d * (P * P)) * Nat.sqrt (d * (P * P)) ≤ d * (P * P) := Nat.sqrt_le _
  generalize Nat.sqrt (d * (P * P)) = s at hs1 hs2 hs3
  have hX : d * (P * P) + P * P ≤ (n + 1) * P * ((n + 1) * P) := by
    have : d + 1 ≤ (n + 1) * (n + 1) := hn2
    calc d * (P * P) + P * P = (d + 1) * (P * P) := by ring
      _ ≤ (n + 1) * (n + 1) * (P * P) := Nat.mul_le_mul_right _ this
      _ = (n + 1) * P * ((n + 1) * P) := by ring
  apply Nat.div_eq_of_lt_le
  · split <;> omega
  · split
    · exact hs2
    · rename_i hgt
      by_contra hcon
      have hsN : s + 1 = (n + 1) * P := by omega
      have hXs : s * s + s < d * (P * P) := by omega
      have hPn : P * P ≤ (n + 1) * P := by
        have : s * s + s + P * P ≤ (s + 1) * (s + 1) := by
          rw [hsN]
          omega
        have : (s + 1) * (s + 1) = s * s + s + (s + 1) := by ring
        omega
      have : P ≤ n + 1 := Nat.le_of_mul_le_mul_right hPn (by omega)
      omega

/-- The result of `(size_t) std::sqrt(dimensions)` never exceeds `dimensions`. -/
theorem sqrtTrunc_le_self {d : Nat} (h : d < 2 ^ 64) : sqrtTrunc d ≤ d := by
  by_cases h52 : d < 2 ^ 52
  · rw [sqrtTrunc_eq_sqrt h52]
    exact Nat.sqrt_le_self d
  · have := sqrtTrunc_le_pow h
    omega

theorem sqrtTrunc_zero : sqrtTrunc 0 = 0 := by
  rw [sqrtTrunc_eq_sqrt (by norm_num)]
  exact (Nat.eq_sqrt.2 ⟨by norm_num, by norm_num⟩).symm

theorem sqrtTrunc_one : sqrtTrunc 1 = 1 := by
  rw [sqrtTrunc_eq_sqrt (by norm_num)]
  exact (Nat.eq_sqrt.2 ⟨by norm_num, by norm_num⟩).symm

theorem sqrtTrunc_ten : sqrtTrunc 10 = 3 := by
  rw [sqrtTrunc_eq_sqrt (by norm_num)]
  exact (Nat.eq_sqrt.2 ⟨by norm_num, by norm_num⟩).symm

theorem sqrtTrunc_sixteen : sqrtTrunc 16 = 4 := by
  rw [sqrtTrunc_eq_sqrt (by norm_num)]
  exact (Nat.eq_sqrt.2 ⟨by norm_num, by norm_num⟩).symm

theorem sqrtTrunc_hundred : sqrtTrunc 100 = 10 := by
  rw [sqrtTrunc_eq_sqrt (by norm_num)]
  exact (Nat.eq_sqrt.2 ⟨by norm_num, by norm_num⟩).symm

/-- At `2 ^ 52 + 2 ^ 27 = (2 ^ 26 + 1) ^ 2 - 1` the rounded root is `2 ^ 26 + 1`:
the exact root lies less than half a unit in the last place below it. -/
theorem sqrtTrunc_big : sqrtTrunc (2 ^ 52 + 2 ^ 27) = 2 ^ 26 + 1 := by
  have hx : toDouble (2 ^ 52 + 2 ^ 27) = 2 ^ 52 + 2 ^ 27 := toDouble_of_lt (by norm_num)
  have hk : Nat.log 2 (2 ^ 52 + 2 ^ 27) = 52 :=
    Nat.log_eq_of_pow_le_of_lt_pow (by norm_num) (by norm_num)
  have hs : Nat.sqrt ((2 ^ 52 + 2 ^ 27) * 4 ^ (52 - 52 / 2)) = 2 ^ 52 + 2 ^ 26 - 1 :=
    (Nat.eq_sqrt.2 ⟨by norm_num, by norm_num⟩).symm
  rw [sqrtTrunc_eval hx hk hs]
  norm_num

theorem sqrt_big : Nat.sqrt (2 ^ 52 + 2 ^ 27) = 2 ^ 26 :=
  (Nat.eq_sqrt.2 ⟨by norm_num, by norm_num⟩).symm

end mlpack.tree

namespace mlpack.tree

/-! ## The loops of `Begin` -/

theorem readAt_append_length (a : List Nat) (x : Nat) (tail : List Nat) :
    readAt (a ++ x :: tail) a.length = .ok x := by
  have h : (a ++ x :: tail).get? a.length = some x := by
    rw [List.get?_eq_getElem?, List.getElem?_append_right (Nat.le_refl _)]
    simp
  simp only [readAt, h]

theorem writeAt_append_length (a : List Nat) (t : Nat) (tail : List Nat) (v : Nat) :
    writeAt (a ++ t :: tail) a.length v = .ok ((a ++ [v]) ++ tail) := by
  simp [writeAt]

theorem writeAt_ok_lt {values values' : List Nat} {j v : Nat}
    (h : writeAt values j v = .ok values') : j < values.length ∧ values' = values.set j v := by
  unfold writeAt at h
  split at h
  · rename_i hj
    simp only [Except.ok.injEq] at h
    exact ⟨hj, h.symm⟩
  · simp at h

/-- The duplicate scan over the slots `b` that follow the slots `a`: the final
`unique` tells whether `value` is absent from `b`. -/
theorem uniqueCheck_append (value : Nat) (b : List Nat) :
    ∀ (a tail : List Nat),
      uniqueCheck (a ++ b ++ tail) value b.length a.length = .ok (decide (value ∉ b)) := by
  induction b with
  | nil => intro a tail; simp [uniqueCheck]
  | cons x b ih =>
    intro a tail
    have hread : readAt (a ++ x :: b ++ tail) a.length = .ok x := by
      have := readAt_append_length a x (b ++ tail)
      simpa using this
    simp only [List.length_cons, uniqueCheck, hread]
    by_cases hx : x = value
    · simp [hx]
    · have := ih (a ++ [x]) tail
      simp only [List.length_append, List.length_singleton, List.append_assoc,
        List.singleton_append] at this
      simp only [hx, if_false]
      simp only [List.append_assoc, List.cons_append] at this ⊢
      rw [this]
      have hx' : ¬ value = x := fun h => hx h.symm
      simp [hx']

theorem uniqueCheck_filled (pre tail : List Nat) (value : Nat) :
    uniqueCheck (pre ++ tail) value pre.length 0 = .ok (decide (value ∉ pre)) := by
  have := uniqueCheck_append value pre [] tail
  simpa using this

/-- One round of the `while (!unique)` loop: a draw already among the filled
slots is rejected, any other draw is accepted. -/
theorem drawUnique_cons (pre tail : List Nat) (x : Nat) (draws : List Nat) :
    drawUnique (pre ++ tail) pre.length (x :: draws) =
      if x ∈ pre then drawUnique (pre ++ tail) pre.length draws else .ok (x, draws) := by
  simp only [drawUnique, uniqueCheck_filled]
  by_cases hx : x ∈ pre <;> simp [hx]

/-- The filling loop on a buffer with room for the `n` slots still to fill:
the accepted values are those of `firstDistinct`, written after the filled
slots; the slots beyond are untouched. -/
theorem fillValues_eq (draws : List Nat) :
    ∀ (n : Nat) (pre tail : List Nat), n ≤ tail.length →
      fillValues (pre ++ tail) n pre.length draws =
        match firstDistinct pre n draws with
        | none => .error .starved
        | some (acc, rest) => .ok (pre ++ acc ++ tail.drop n, rest) := by
  induction draws with
  | nil =>
    intro n pre tail _
    cases n with
    | zero => simp [fillValues, firstDistinct]
    | succ n => simp [fillValues, firstDistinct, drawUnique]
  | cons x draws ih =>
    intro n pre tail hn
    cases n with
    | zero => simp [fillValues, firstDistinct]
    | succ n =>
      by_cases hx : x ∈ pre
      · have hstep : fillValues (pre ++ tail) (n + 1) pre.length (x :: draws) =
            fillValues (pre ++ tail) (n + 1) pre.length draws := by
          simp only [fillValues, drawUnique_cons, hx, if_true]
        rw [hstep, ih (n + 1) pre tail hn]
        simp [firstDistinct, hx]
      · cases tail with
        | nil => simp at hn
        | cons t tail =>
          have hn' : n ≤ tail.length := by simpa using hn
          have hlen : (pre ++ [x]).length = pre.length + 1 := by simp
          have hstep : fillValues (pre ++ t :: tail) (n + 1) pre.length (x :: draws) =
              fillValues ((pre ++ [x]) ++ tail) n (pre ++ [x]).length draws := by
            simp only [fillValues, drawUnique_cons, hx, if_false, writeAt_append_length, hlen]
          rw [hstep, ih n (pre ++ [x]) tail hn']
          simp only [firstDistinct, hx, if_false]
          cases firstDistinct (pre ++ [x]) n draws with
          | none => simp
          | some p => simp

/-- The filling loop returns only if the buffer has room for the `n` slots. -/
theorem fillValues_ok_le (draws : List Nat) :
    ∀ (n : Nat) (pre tail : List Nat) (r : List Nat × List Nat),
      fillValues (pre ++ tail) n pre.length draws = .ok r → n ≤ tail.length := by
  induction draws with
  | nil =>
    intro n pre tail r h
    cases n with
    | zero => simp
    | succ n => simp [fillValues, drawUnique] at h
  | cons x draws ih =>
    intro n pre tail r h
    cases n with
    | zero => simp
    | succ n =>
      by_cases hx : x ∈ pre
      · have hstep : fillValues (pre ++ tail) (n + 1) pre.length (x :: draws) =
            fillValues (pre ++ tail) (n + 1) pre.length draws := by
          simp only [fillValues, drawUnique_cons, hx, if_true]
        rw [hstep] at h
        exact ih (n + 1) pre tail r h
      · cases tail with
        | nil =>
          have hd := drawUnique_cons pre [] x draws
          rw [List.append_nil] at hd
          simp [fillValues, hd, hx, writeAt] at h
        | cons t tail =>
          have hlen : (pre ++ [x]).length = pre.length + 1 := by simp
          have hstep : fillValues (pre ++ t :: tail) (n + 1) pre.length (x :: draws) =
              fillValues ((pre ++ [x]) ++ tail) n (pre ++ [x]).length draws := by
            simp only [fillValues, drawUnique_cons, hx, if_false, writeAt_append_length, hlen]
          rw [hstep] at h
          have := ih n (pre ++ [x]) tail r h
          simp only [List.length_cons]
          omega

end mlpack.tree

namespace mlpack.tree

/-! ## The accepted values -/

theorem firstDistinct_length :
    ∀ (draws : List Nat) (seen : List Nat) (n : Nat) (acc rest : List Nat),
      firstDistinct seen n draws = some (acc, rest) → acc.length = n := by
  intro draws
  induction draws with
  | nil =>
    intro seen n acc rest h
    cases n with
    | zero =>
      simp only [firstDistinct, Option.some.injEq, Prod.mk.injEq] at h
      rw [← h.1]
      rfl
    | succ n => simp [firstDistinct] at h
  | cons x draws ih =>
    intro seen n acc rest h
    cases n with
    | zero =>
      simp only [firstDistinct, Option.some.injEq, Prod.mk.injEq] at h
      rw [← h.1]
      rfl
    | succ n =>
      by_cases hx : x ∈ seen
      · simp only [firstDistinct, hx, if_true] at h
        exact ih seen (n + 1) acc rest h
      · simp only [firstDistinct, hx, if_false, Option.map_eq_some', Prod.mk.injEq] at h
        obtain ⟨⟨acc', rest'⟩, hp, hacc, _⟩ := h
        have := ih (seen ++ [x]) n acc' rest' hp
        rw [← hacc]
        simp [this]

/-- Accepted values are new: they extend a duplicate-free `seen` to a
duplicate-free list. -/
theorem firstDistinct_nodup :
    ∀ (draws : List Nat) (seen : List Nat) (n : Nat) (acc rest : List Nat),
      firstDistinct seen n draws = some (acc, rest) → seen.Nodup → (seen ++ acc).Nodup := by
  intro draws
  induction draws with
  | nil =>
    intro seen n acc rest h hs
    cases n with
    | zero =>
      simp only [firstDistinct, Option.some.injEq, Prod.mk.injEq] at h
      rw [← h.1]
      simpa using hs
    | succ n => simp [firstDistinct] at h
  | cons x draws ih =>
    intro seen n acc rest h hs
    cases n with
    | zero =>
      simp only [firstDistinct, Option.some.injEq, Prod.mk.injEq] at h
      rw [← h.1]
      simpa using hs
    | succ n =>
      by_cases hx : x ∈ seen
      · simp only [firstDistinct, hx, if_true] at h
        exact ih seen (n + 1) acc rest h hs
      · simp only [firstDistinct, hx, if_false, Option.map_eq_some', Prod.mk.injEq] at h
        obtain ⟨⟨acc', rest'⟩, hp, hacc, _⟩ := h
        have hs' : (seen ++ [x]).Nodup := by
          rw [List.nodup_append]
          refine ⟨hs, List.nodup_singleton x, ?_⟩
          intro a ha hb
          rw [List.mem_singleton] at hb
          exact hx (hb ▸ ha)
        have := ih (seen ++ [x]) n acc' rest' hp hs'
        rw [← hacc]
        simpa using this

/-- Accepted values are draws. -/
theorem firstDistinct_mem :
    ∀ (draws : List Nat) (seen : List Nat) (n : Nat) (acc rest : List Nat),
      firstDistinct seen n draws = some (acc, rest) → ∀ v ∈ acc, v ∈ draws := by
  intro draws
  induction draws with
  | nil =>
    intro seen n acc rest h
    cases n with
    | zero =>
      simp only [firstDistinct, Option.some.injEq, Prod.mk.injEq] at h
      rw [← h.1]
      simp
    | succ n => simp [firstDistinct] at h
  | cons x draws ih =>
    intro seen n acc rest h
    cases n with
    | zero =>
      simp only [firstDistinct, Option.some.injEq, Prod.mk.injEq] at h
      rw [← h.1]
      simp
    | succ n =>
      by_cases hx : x ∈ seen
      · simp only [firstDistinct, hx, if_true] at h
        intro v hv
        exact List.mem_cons_of_mem _ (ih seen (n + 1) acc rest h v hv)
      · simp only [firstDistinct, hx, if_false, Option.map_eq_some', Prod.mk.injEq] at h
        obtain ⟨⟨acc', rest'⟩, hp, hacc, _⟩ := h
        intro v hv
        rw [← hacc] at hv
        rcases List.mem_cons.1 hv with hv | hv
        · rw [hv]
          exact List.mem_cons_self _ _
        · exact List.mem_cons_of_mem _ (ih (seen ++ [x]) n acc' rest' hp v hv)

/-- Draws that are pairwise distinct and all new are accepted one after the
other. -/
theorem firstDistinct_of_nodup :
    ∀ (draws : List Nat) (seen : List Nat), (seen ++ draws).Nodup →
      firstDistinct seen draws.length draws = some (draws, []) := by
  intro draws
  induction draws with
  | nil => intro seen _; rfl
  | cons x draws ih =>
    intro seen h
    have hx : x ∉ seen := by
      intro hx
      rw [List.nodup_append] at h
      exact h.2.2 hx (List.mem_cons_self _ _)
    have h' : ((seen ++ [x]) ++ draws).Nodup := by simpa using h
    simp only [List.length_cons, firstDistinct, hx, if_false, ih (seen ++ [x]) h']
    rfl

/-! ## `Begin` in terms of the accepted values -/

theorem length_set_size (values : List Nat) (n : Nat) : (set_size values n).length = n := by
  simp [set_size]

theorem readAt_zero_append (acc : List Nat) (x : Nat) :
    readAt (acc ++ [x]) 0 = .ok ((acc ++ [x]).headD x) := by
  cases acc <;> simp [readAt]

namespace MultipleRandomDimensionSelect

/-- A run of `Begin` whose buffer size `numDimensions + 1` does not wrap: the
sample set is the accepted values followed by the sentinel. -/
theorem Begin_eq (s : MultipleRandomDimensionSelect) (draws : List Nat)
    (hb : effectiveSize s.numDimensions s.dimensions + 1 < 2 ^ 64) :
    Begin s draws =
      match firstDistinct [] (effectiveSize s.numDimensions s.dimensions) draws with
      | none => .error .starved
      | some (acc, rest) =>
        .ok ((acc ++ [SIZE_MAX]).headD SIZE_MAX,
          { numDimensions := effectiveSize s.numDimensions s.dimensions,
            values := acc ++ [SIZE_MAX], i := 0, dimensions := s.dimensions }, rest) := by
  unfold Begin
  simp only
  generalize effectiveSize s.numDimensions s.dimensions = e at hb
  rw [Nat.mod_eq_of_lt hb]
  have hlen := length_set_size s.values (e + 1)
  generalize set_size s.values (e + 1) = buf at hlen
  have hfill := fillValues_eq draws e [] buf (by omega)
  simp only [List.nil_append, List.length_nil] at hfill
  rw [hfill]
  cases hfd : firstDistinct [] e draws with
  | none => rfl
  | some p =>
    obtain ⟨acc, rest⟩ := p
    have hacc : acc.length = e := firstDistinct_length draws [] e acc rest hfd
    have hdrop : (buf.drop e).length = 1 := by
      rw [List.length_drop]
      omega
    obtain ⟨g, hg⟩ := List.length_eq_one.1 hdrop
    simp only [hg]
    have hw := writeAt_append_length acc g [] SIZE_MAX
    rw [hacc, List.append_nil] at hw
    rw [hw]
    simp only [readAt_zero_append]

/-- A run of `Begin` returns only if the buffer size `numDimensions + 1` does
not wrap around. -/
theorem Begin_ok_bound (s : MultipleRandomDimensionSelect) (draws : List Nat)
    (r : Nat × MultipleRandomDimensionSelect × List Nat) (h : Begin s draws = .ok r) :
    effectiveSize s.numDimensions s.dimensions + 1 < 2 ^ 64 := by
  unfold Begin at h
  simp only at h
  generalize effectiveSize s.numDimensions s.dimensions = e at h
  have hlen := length_set_size s.values ((e + 1) % 2 ^ 64)
  generalize set_size s.values ((e + 1) % 2 ^ 64) = buf at hlen h
  cases hf : fillValues buf e 0 draws with
  | error err => simp [hf] at h
  | ok p =>
    obtain ⟨values', rest⟩ := p
    have hle : e ≤ buf.length := fillValues_ok_le draws e [] buf (values', rest) hf
    have hfill := fillValues_eq draws e [] buf hle
    simp only [List.nil_append, List.length_nil] at hfill
    rw [hf] at hfill
    cases hfd : firstDistinct [] e draws with
    | none => simp [hfd] at hfill
    | some q =>
      obtain ⟨acc, rest'⟩ := q
      have hacc : acc.length = e := firstDistinct_length draws [] e acc rest' hfd
      simp only [hfd, Except.ok.injEq, Prod.mk.injEq] at hfill
      simp only [hf] at h
      cases hw : writeAt values' e SIZE_MAX with
      | error err => simp [hw] at h
      | ok v2 =>
        have hlt := (writeAt_ok_lt hw).1
        rw [hfill.1, List.length_append, List.length_drop, hacc] at hlt
        omega

/-- What a returning run of `Begin` returns. -/
theorem Begin_ok_iff (s : MultipleRandomDimensionSelect) (draws : List Nat) (first : Nat)
    (s' : MultipleRandomDimensionSelect) (rest : List Nat) :
    Begin s draws = .ok (first, s', rest) ↔
      effectiveSize s.numDimensions s.dimensions + 1 < 2 ^ 64 ∧
      ∃ acc, firstDistinct [] (effectiveSize s.numDimensions s.dimensions) draws = some (acc, rest) ∧
        first = (acc ++ [SIZE_MAX]).headD SIZE_MAX ∧
        s' = { numDimensions := effectiveSize s.numDimensions s.dimensions,
               values := acc ++ [SIZE_MAX], i := 0, dimensions := s.dimensions } := by
  constructor
  · intro h
    have hb := Begin_ok_bound s draws _ h
    refine ⟨hb, ?_⟩
    rw [Begin_eq s draws hb] at h
    cases hfd : firstDistinct [] (effectiveSize s.numDimensions s.dimensions) draws with
    | none => simp [hfd] at h
    | some q =>
      obtain ⟨acc, rest'⟩ := q
      simp only [hfd, Except.ok.injEq, Prod.mk.injEq] at h
      exact ⟨acc, by rw [h.2.2], h.1.symm, h.2.1.symm⟩
  · rintro ⟨hb, acc, hfd, hfirst, hs'⟩
    rw [Begin_eq s draws hb, hfd, hfirst, hs']

end MultipleRandomDimensionSelect

end mlpack.tree

namespace mlpack.tree

/-! ## Effective sizes -/

theorem effectiveSize_zero_sixteen : effectiveSize 0 16 = 4 := by
  simp [effectiveSize, sqrtTrunc_sixteen]

theorem effectiveSize_twenty_ten : effectiveSize 20 10 = 3 := by
  simp [effectiveSize, sqrtTrunc_ten]

theorem specCount_eq_effectiveSize {r d : Nat} (hd : d < 2 ^ 52) :
    specCount r d = effectiveSize r d := by
  unfold specCount effectiveSize
  by_cases h : 0 < r ∧ r ≤ d
  · have h' : ¬ (r = 0 ∨ r > d) := by omega
    rw [if_pos h, if_neg h']
  · have h' : r = 0 ∨ r > d := by omega
    rw [if_neg h, if_pos h', sqrtTrunc_eq_sqrt hd]

theorem specCount_twenty_ten : specCount 20 10 = 3 := by
  rw [specCount_eq_effectiveSize (by norm_num), effectiveSize_twenty_ten]

theorem effectiveSize_self (d : Nat) : effectiveSize d d = d := by
  unfold effectiveSize
  by_cases h : d = 0
  · subst h
    simp [sqrtTrunc_zero]
  · have h' : ¬ (d = 0 ∨ d > d) := by omega
    rw [if_neg h']

theorem effectiveSize_le_self {r d : Nat} (hd : d < 2 ^ 64) : effectiveSize r d ≤ d := by
  unfold effectiveSize
  split
  · exact sqrtTrunc_le_self hd
  · omega

theorem effectiveSize_lt_pow {r d : Nat} (hr : r < 2 ^ 64) (hd : d < 2 ^ 64) :
    effectiveSize r d < 2 ^ 64 := by
  unfold effectiveSize
  split
  · have := sqrtTrunc_le_pow hd
    omega
  · exact hr

theorem set_size_zero (values : List Nat) : set_size values 0 = [] := by
  simp [set_size]

theorem specCount_zero_hundred : specCount 0 100 = 10 := by
  rw [specCount_eq_effectiveSize (by norm_num)]
  simp [effectiveSize, sqrtTrunc_hundred]

namespace MultipleRandomDimensionSelect

/-! ## Sample runs, calls of `Next`, the state after `Begin` -/

/-- The body of `Begin` once the effective size has been evaluated. -/
theorem Begin_unfold (s : MultipleRandomDimensionSelect) (draws : List Nat) (e : Nat)
    (he : effectiveSize s.numDimensions s.dimensions = e) :
    Begin s draws =
      match fillValues (set_size s.values ((e + 1) % 2 ^ 64)) e 0 draws with
      | .error err => .error err
      | .ok (values, rest) =>
        match writeAt values e SIZE_MAX with
        | .error err => .error err
        | .ok values =>
          match readAt values 0 with
          | .error err => .error err
          | .ok first =>
            .ok (first, { numDimensions := e, values := values, i := 0,
                          dimensions := s.dimensions }, rest) := by
  subst he
  rfl

theorem Begin_scenarioA : Begin scenarioA drawsA = .ok (3, afterA, [5]) :=
  (Begin_unfold _ _ 4 effectiveSize_zero_sixteen).trans rfl

theorem Begin_scenarioB : Begin scenarioB drawsB = .ok (3, afterB, [9, 5]) :=
  (Begin_unfold _ _ 3 effectiveSize_twenty_ten).trans rfl

theorem Begin_scenarioC : Begin scenarioC drawsC = .ok (3, afterC, [4]) :=
  rfl

/-- A call of `Next` whose new cursor is inside the buffer returns the slot at
the new cursor. -/
theorem Next_eq (s : MultipleRandomDimensionSelect) (v : Nat)
    (hv : s.values.get? (s.i + 1) = some v) (hi : s.i + 1 < 2 ^ 64) :
    Next s = .ok (v, { s with i := s.i + 1 }) := by
  unfold Next
  simp only [Nat.mod_eq_of_lt hi, readAt, hv]

/-- Successive calls of `Next` that stay inside the buffer return the slots that
follow the cursor, in order. -/
theorem nexts_eq :
    ∀ (k : Nat) (s : MultipleRandomDimensionSelect), s.i + k < s.values.length →
      s.i + k < 2 ^ 64 →
      nexts k s = .ok ((s.values.drop (s.i + 1)).take k, { s with i := s.i + k }) := by
  intro k
  induction k with
  | zero => intro s _ _; simp [nexts]
  | succ k ih =>
    intro s hlen hi
    have hlt : s.i + 1 < s.values.length := by omega
    have hv : s.values.get? (s.i + 1) = some s.values[s.i + 1] := by
      rw [List.get?_eq_getElem?, List.getElem?_eq_getElem hlt]
    have hnext := Next_eq s _ hv (by omega)
    have hrec := ih { s with i := s.i + 1 } (by simp only; omega) (by simp only; omega)
    simp only at hrec
    simp only [nexts, hnext, hrec]
    rw [List.drop_eq_getElem_cons hlt, List.take_succ_cons, Nat.add_assoc s.i 1 k,
      Nat.add_comm 1 k]

/-- The shape of the state a returning `Begin` leaves: the accepted values
followed by the sentinel, cursor `0`. -/
theorem Begin_shape (s : MultipleRandomDimensionSelect) (draws : List Nat) (first : Nat)
    (s' : MultipleRandomDimensionSelect) (rest : List Nat)
    (h : Begin s draws = .ok (first, s', rest)) :
    ∃ acc, s'.values = acc ++ [SIZE_MAX] ∧ acc.length = s'.numDimensions ∧
      s'.numDimensions = effectiveSize s.numDimensions s.dimensions ∧
      s'.numDimensions + 1 < 2 ^ 64 ∧ s'.i = 0 ∧ s'.dimensions = s.dimensions ∧
      first :: (acc ++ [SIZE_MAX]).drop 1 = acc ++ [SIZE_MAX] ∧
      (∀ v ∈ acc, v ∈ draws) ∧ acc.Nodup := by
  obtain ⟨hb, acc, hfd, hfirst, hs'⟩ := (Begin_ok_iff s draws first s' rest).1 h
  have hlen := firstDistinct_length draws [] _ acc rest hfd
  have hmem := firstDistinct_mem draws [] _ acc rest hfd
  have hnd := firstDistinct_nodup draws [] _ acc rest hfd List.nodup_nil
  refine ⟨acc, by rw [hs'], by rw [hs']; exact hlen, by rw [hs'], by rw [hs']; exact hb,
    by rw [hs'], by rw [hs'], ?_, hmem, by simpa using hnd⟩
  rw [hfirst]
  cases acc <;> simp

/-- After a returning `Begin`, `k` calls of `Next` with `k` at most the
effective size return the slots `1 .. k`. -/
theorem nexts_after_Begin (s : MultipleRandomDimensionSelect) (draws : List Nat) (first : Nat)
    (s' : MultipleRandomDimensionSelect) (rest : List Nat)
    (h : Begin s draws = .ok (first, s', rest)) (k : Nat) (hk : k ≤ s'.numDimensions) :
    nexts k s' = .ok ((s'.values.drop 1).take k, { s' with i := k }) := by
  obtain ⟨acc, hvals, hlen, _, hb, hi, _⟩ := Begin_shape s draws first s' rest h
  have := nexts_eq k s' (by rw [hi, hvals]; simp; omega) (by rw [hi]; omega)
  rw [hi] at this
  simpa using this

/-- The two spellings of the sentinel, `size_t(-1)` and
`std::numeric_limits<size_t>::max()`, are the same number. -/
theorem End_eq (s : MultipleRandomDimensionSelect) : End s = SIZE_MAX := by
  unfold End SIZE_MAX
  decide

/-- A run of `Begin` on draws that are pairwise distinct, as many as the
effective size. -/
theorem Begin_of_nodup (s : MultipleRandomDimensionSelect) (draws : List Nat)
    (hnd : draws.Nodup)
    (hlen : draws.length = effectiveSize s.numDimensions s.dimensions)
    (hb : effectiveSize s.numDimensions s.dimensions + 1 < 2 ^ 64) :
    Begin s draws =
      .ok ((draws ++ [SIZE_MAX]).headD SIZE_MAX,
        { numDimensions := effectiveSize s.numDimensions s.dimensions,
          values := draws ++ [SIZE_MAX], i := 0, dimensions := s.dimensions }, []) := by
  rw [Begin_eq s draws hb, ← hlen, firstDistinct_of_nodup draws [] (by simpa using hnd)]

/-- The values handed out by a returning `Begin` and the following `e` calls of
`Next`, `e` the effective size: when the draws are below `SIZE_MAX`, exactly
`e` values precede the first sentinel. -/
theorem yielded_count (s : MultipleRandomDimensionSelect) (draws : List Nat) (first : Nat)
    (s' : MultipleRandomDimensionSelect) (rest : List Nat)
    (hdraws : ∀ v ∈ draws, v < SIZE_MAX)
    (h : Begin s draws = .ok (first, s', rest)) :
    ∃ vs s'', nexts s'.numDimensions s' = .ok (vs, s'') ∧
      ((first :: vs).takeWhile fun v => decide (v ≠ End s')).length = s'.numDimensions ∧
      (first :: vs).get? s'.numDimensions = some (End s') := by
  obtain ⟨acc, hvals, hlen, _, _, _, _, hfirst, hmem, _⟩ := Begin_shape s draws first s' rest h
  refine ⟨_, _, nexts_after_Begin s draws first s' rest h _ (Nat.le_refl _), ?_, ?_⟩
  · have htake : (s'.values.drop 1).take s'.numDimensions = s'.values.drop 1 := by
      apply List.take_of_length_le
      rw [hvals]
      simp
      omega
    rw [htake, hvals, hfirst]
    have hall : ∀ a ∈ acc, (fun v => decide (v ≠ End s')) a = true := by
      intro a ha
      have := hdraws a (hmem a ha)
      have hE : End s' = SIZE_MAX := End_eq s'
      simp only [hE, ne_eq, decide_not, Bool.not_eq_true', decide_eq_false_iff_not]
      omega
    rw [List.takeWhile_append_of_pos hall]
    have hE : End s' = SIZE_MAX := End_eq s'
    simp [hE, hlen]
  · have htake : (s'.values.drop 1).take s'.numDimensions = s'.values.drop 1 := by
      apply List.take_of_length_le
      rw [hvals]
      simp
      omega
    rw [htake, hvals, hfirst, List.get?_eq_getElem?, List.getElem?_append_right (by omega)]
    have hE : End s' = SIZE_MAX := End_eq s'
    simp [hlen, hE]

/-- Scenario A run to the end: `Begin` and three calls of `Next` hand out four
values, the fourth call of `Next` returns the sentinel. -/
theorem scenarioA_run :
    Begin scenarioA drawsA = .ok (3, afterA, [5]) ∧
      nexts 4 afterA = .ok ([7, 1, 12, End afterA], { afterA with i := 4 }) :=
  ⟨Begin_scenarioA, rfl⟩

theorem Begin_afterA : Begin (setDimensions afterA 100) drawsD =
    .ok (5, afterD, [8, 99, 50, 61, 72, 83, 94]) :=
  rfl

end MultipleRandomDimensionSelect

end mlpack.tree

namespace mlpack.tree

/-! ## Reachable states -/

theorem effectiveSize_zero_dimensions (r : Nat) : effectiveSize r 0 = 0 := by
  unfold effectiveSize
  have h : r = 0 ∨ r > 0 := by omega
  rw [if_pos h, sqrtTrunc_zero]

theorem firstDistinct_zero (seen draws : List Nat) :
    firstDistinct seen 0 draws = some ([], draws) := by
  cases draws <;> rfl

theorem readAt_ok {values : List Nat} {j v : Nat} :
    readAt values j = .ok v ↔ values.get? j = some v := by
  unfold readAt
  cases values.get? j <;> simp

namespace MultipleRandomDimensionSelect

/-- What a returning `Next` returns: the slot at the incremented cursor, reduced
modulo `2 ^ 64`, and the state with that cursor. -/
theorem Next_ok {s s' : MultipleRandomDimensionSelect} {v : Nat}
    (h : Next s = .ok (v, s')) :
    s.values.get? ((s.i + 1) % 2 ^ 64) = some v ∧ s' = { s with i := (s.i + 1) % 2 ^ 64 } := by
  unfold Next at h
  simp only at h
  cases hr : readAt s.values ((s.i + 1) % 2 ^ 64) with
  | error e =>
    rw [hr] at h
    simp at h
  | ok w =>
    rw [hr] at h
    simp only [Except.ok.injEq, Prod.mk.injEq] at h
    exact ⟨by rw [← h.1]; exact readAt_ok.1 hr, h.2.symm⟩

/-- In a reachable state the buffer is empty, or the cursor is inside the
buffer and the buffer has fewer than `2 ^ 64` slots. -/
theorem Reachable_cursor {s : MultipleRandomDimensionSelect} (h : Reachable s) :
    s.values = [] ∨ (s.i < s.values.length ∧ s.values.length < 2 ^ 64) := by
  induction h with
  | construct r c => exact Or.inl rfl
  | setDimensions d _ ih => exact ih
  | @Begin t t' draws rest first _ hB _ =>
    obtain ⟨acc, hvals, hlen, _, hb, hi, _⟩ := Begin_shape t draws first t' rest hB
    refine Or.inr ⟨?_, ?_⟩
    · rw [hi, hvals]
      simp
    · rw [hvals]
      simp
      omega
  | @Next t t' v _ hN ih =>
    obtain ⟨hget, ht'⟩ := Next_ok hN
    rcases ih with hnil | ⟨_, hlen⟩
    · rw [hnil] at hget
      simp at hget
    · refine Or.inr ?_
      rw [ht']
      simp only
      refine ⟨?_, hlen⟩
      rw [List.get?_eq_getElem?] at hget
      exact (List.getElem?_eq_some.1 hget).1

theorem Reachable_afterA : Reachable afterA :=
  Reachable.Begin (Reachable.setDimensions 16 (Reachable.construct 0 7)) Begin_scenarioA

end MultipleRandomDimensionSelect

end mlpack.tree

namespace mlpack.tree

/-! ## The loop of the caller -/

namespace MultipleRandomDimensionSelect

end MultipleRandomDimensionSelect

end mlpack.tree

namespace mlpack.tree

/-! ## Accepted values and first occurrences -/

/-- The accepted values are the first occurrences in the draws that were used,
and the run stops right after a first occurrence. -/
theorem firstDistinct_used :
    ∀ (draws : List Nat) (seen : List Nat) (n : Nat) (acc rest : List Nat),
      firstDistinct seen n draws = some (acc, rest) →
      ∃ used, draws = used ++ rest ∧ firstOccurrences seen used = acc ∧
        (n = 0 → used = []) ∧
        (0 < n → ∃ init x, used = init ++ [x] ∧ x ∉ seen ∧ x ∉ init ∧
          acc.getLast? = some x) := by
  intro draws
  induction draws with
  | nil =>
    intro seen n acc rest h
    cases n with
    | zero =>
      simp only [firstDistinct, Option.some.injEq, Prod.mk.injEq] at h
      exact ⟨[], by rw [← h.2]; rfl, by rw [← h.1]; rfl, fun _ => rfl, fun h0 => absurd h0 (by omega)⟩
    | succ n => simp [firstDistinct] at h
  | cons x draws ih =>
    intro seen n acc rest h
    cases n with
    | zero =>
      simp only [firstDistinct, Option.some.injEq, Prod.mk.injEq] at h
      exact ⟨[], by rw [← h.2]; rfl, by rw [← h.1]; rfl, fun _ => rfl, fun h0 => absurd h0 (by omega)⟩
    | succ n =>
      by_cases hx : x ∈ seen
      · simp only [firstDistinct, hx, if_true] at h
        obtain ⟨used, hd, hfo, _, hlast⟩ := ih seen (n + 1) acc rest h
        obtain ⟨init, y, hu, hys, hyi, hacc⟩ := hlast (by omega)
        refine ⟨x :: used, by rw [hd]; rfl, by simp [firstOccurrences, hx, hfo],
          fun h0 => absurd h0 (by omega), fun _ => ⟨x :: init, y, by rw [hu]; rfl, hys, ?_, hacc⟩⟩
        intro hmem
        rcases List.mem_cons.1 hmem with h1 | h1
        · exact hys (h1 ▸ hx)
        · exact hyi h1
      · simp only [firstDistinct, hx, if_false, Option.map_eq_some', Prod.mk.injEq] at h
        obtain ⟨⟨acc', rest'⟩, hp, hacc, hrest⟩ := h
        simp only at hacc hrest
        subst hrest
        obtain ⟨used, hd, hfo, hzero, hlast⟩ := ih (seen ++ [x]) n acc' rest' hp
        refine ⟨x :: used, by rw [hd]; rfl, by simp [firstOccurrences, hx, hfo, hacc],
          fun h0 => absurd h0 (by omega), fun _ => ?_⟩
        by_cases hn : n = 0
        · have hu := hzero hn
          subst hn
          rw [firstDistinct_zero] at hp
          simp only [Option.some.injEq, Prod.mk.injEq] at hp
          refine ⟨[], x, by rw [hu]; rfl, hx, by simp, ?_⟩
          rw [← hacc, ← hp.1]
          rfl
        · obtain ⟨init, y, hu, hys, hyi, hacc'⟩ := hlast (by omega)
          refine ⟨x :: init, y, by rw [hu]; rfl, ?_, ?_, ?_⟩
          · intro hmem
            exact hys (List.mem_append_left _ hmem)
          · intro hmem
            rcases List.mem_cons.1 hmem with h1 | h1
            · exact hys (by rw [h1]; simp)
            · exact hyi h1
          · rw [← hacc]
            cases acc' with
            | nil => simp at hacc'
            | cons b t => simpa using hacc'

/-- The first occurrences in an initial part of the draws open the list of the
first occurrences in all the draws. -/
theorem firstOccurrences_append (r : List Nat) :
    ∀ (u seen : List Nat),
      ∃ tail, firstOccurrences seen (u ++ r) = firstOccurrences seen u ++ tail := by
  intro u
  induction u with
  | nil => intro seen; exact ⟨firstOccurrences seen r, rfl⟩
  | cons x u ih =>
    intro seen
    by_cases hx : x ∈ seen
    · obtain ⟨tail, ht⟩ := ih seen
      exact ⟨tail, by simp [firstOccurrences, hx, ht]⟩
    · obtain ⟨tail, ht⟩ := ih (seen ++ [x])
      exact ⟨tail, by simp [firstOccurrences, hx, ht]⟩

end mlpack.tree

namespace mlpack.tree

/-! ## Repeated runs and termination -/

/-- The size computation is idempotent: run on its own result, with the same
dimension count, it returns that result. -/
theorem effectiveSize_idem {r d : Nat} (hd : d < 2 ^ 64) :
    effectiveSize (effectiveSize r d) d = effectiveSize r d := by
  have hle : effectiveSize r d ≤ d := effectiveSize_le_self hd
  by_cases h0 : effectiveSize r d = 0
  · rw [h0]
    have hz : effectiveSize 0 d = sqrtTrunc d := by simp [effectiveSize]
    rw [hz]
    unfold effectiveSize at h0
    split at h0
    · exact h0
    · rename_i hne
      omega
  · have hne : ¬ (effectiveSize r d = 0 ∨ effectiveSize r d > d) := by omega
    generalize effectiveSize r d = e at hne
    unfold effectiveSize
    rw [if_neg hne]

/-- Fewer than `d` slots cannot hold every value below `d`. -/
theorem exists_fresh (d : Nat) (slots : List Nat) (h : slots.length < d) :
    ∃ v, v < d ∧ v ∉ slots := by
  by_contra hcon
  have hsub : List.range d ⊆ slots := by
    intro v hv
    by_contra hv'
    exact hcon ⟨v, List.mem_range.1 hv, hv'⟩
  have := (List.subperm_of_subset (List.nodup_range d) hsub).length_le
  rw [List.length_range] at this
  omega

theorem window_append (stream : Nat → Nat) :
    ∀ (m k j : Nat), window stream k (m + j) = window stream k m ++ window stream (k + m) j := by
  intro m
  induction m with
  | zero => intro k j; simp [window]
  | succ m ih =>
    intro k j
    rw [show m + 1 + j = (m + j) + 1 by omega]
    simp only [window, List.cons_append]
    rw [ih (k + 1) j, show k + 1 + m = k + (m + 1) by omega]

theorem mem_window (stream : Nat → Nat) :
    ∀ (m k x : Nat), x ∈ window stream k m → ∃ j, j < m ∧ x = stream (k + j) := by
  intro m
  induction m with
  | zero => intro k x h; simp [window] at h
  | succ m ih =>
    intro k x h
    simp only [window, List.mem_cons] at h
    rcases h with h | h
    · exact ⟨0, by omega, by rw [h]; rfl⟩
    · obtain ⟨j, hj, hx⟩ := ih (k + 1) x h
      exact ⟨j + 1, by omega, by rw [hx, show k + 1 + j = k + (j + 1) by omega]⟩

theorem window_ne_nil (stream : Nat → Nat) (k m : Nat) (hm : 1 ≤ m) :
    ∃ x t, window stream k m = x :: t := by
  obtain ⟨m', rfl⟩ : ∃ m', m = m' + 1 := ⟨m - 1, by omega⟩
  exact ⟨_, _, rfl⟩

/-- More draws do not change a finished run; they are left over. -/
theorem firstDistinct_append (extra : List Nat) :
    ∀ (draws seen : List Nat) (n : Nat) (acc rest : List Nat),
      firstDistinct seen n draws = some (acc, rest) →
      firstDistinct seen n (draws ++ extra) = some (acc, rest ++ extra) := by
  intro draws
  induction draws with
  | nil =>
    intro seen n acc rest h
    cases n with
    | zero =>
      rw [firstDistinct_zero] at h ⊢
      simp only [Option.some.injEq, Prod.mk.injEq] at h
      rw [← h.1, ← h.2]
    | succ n => simp [firstDistinct] at h
  | cons x draws ih =>
    intro seen n acc rest h
    cases n with
    | zero =>
      rw [firstDistinct_zero] at h ⊢
      simp only [Option.some.injEq, Prod.mk.injEq] at h
      rw [← h.1, ← h.2]
    | succ n =>
      by_cases hx : x ∈ seen
      · simp only [firstDistinct, hx, if_true, List.cons_append] at h ⊢
        exact ih seen (n + 1) acc rest h
      · simp only [firstDistinct, hx, if_false, Option.map_eq_some', Prod.mk.injEq,
          List.cons_append] at h ⊢
        obtain ⟨⟨acc', rest'⟩, hp, hacc, hrest⟩ := h
        simp only at hacc hrest
        exact ⟨(acc', rest' ++ extra), ih (seen ++ [x]) n acc' rest' hp, hacc, by rw [← hrest]⟩

/-- Draws that are among the filled slots are passed over. -/
theorem firstDistinct_skip (seen : List Nat) (n : Nat) (l : List Nat) :
    ∀ (skipped : List Nat), (∀ x ∈ skipped, x ∈ seen) →
      firstDistinct seen (n + 1) (skipped ++ l) = firstDistinct seen (n + 1) l := by
  intro skipped
  induction skipped with
  | nil => intro _; rfl
  | cons x skipped ih =>
    intro h
    have hx : x ∈ seen := h x (List.mem_cons_self _ _)
    simp only [List.cons_append, firstDistinct, hx, if_true]
    exact ih (fun y hy => h y (List.mem_cons_of_mem _ hy))

/-- On a source that hands out every value below `d` again and again, the
rejection sampling of `n` more values finishes as long as the filled slots and
`n` together do not exceed `d`. -/
theorem firstDistinct_fair (d : Nat) (stream : Nat → Nat)
    (hfair : ∀ v, v < d → ∀ N, ∃ p, N ≤ p ∧ stream p = v) :
    ∀ (n : Nat) (seen : List Nat) (k : Nat), seen.length + n ≤ d →
      ∃ m acc rest, firstDistinct seen n (window stream k m) = some (acc, rest) := by
  intro n
  induction n with
  | zero => intro seen k _; exact ⟨0, [], [], rfl⟩
  | succ n ih =>
    intro seen k hlen
    obtain ⟨v, hv, hvs⟩ := exists_fresh d seen (by omega)
    obtain ⟨p, hp, hpv⟩ := hfair v hv k
    have hex : ∃ j, stream (k + j) ∉ seen :=
      ⟨p - k, by rw [Nat.add_sub_cancel' hp, hpv]; exact hvs⟩
    classical
    have hj := Nat.find_spec hex
    have hmin : ∀ j', j' < Nat.find hex → stream (k + j') ∈ seen := by
      intro j' hj'
      by_contra hcon
      exact Nat.find_min hex hj' hcon
    generalize Nat.find hex = j at hj hmin
    obtain ⟨m', acc', rest', hrec⟩ := ih (seen ++ [stream (k + j)]) (k + j + 1) (by simp; omega)
    refine ⟨j + (m' + 1), stream (k + j) :: acc', rest', ?_⟩
    rw [window_append, firstDistinct_skip]
    · simp only [window, firstDistinct, hj, if_false, hrec]
      rfl
    · intro x hx
      obtain ⟨j', hj', hxj⟩ := mem_window stream j k x hx
      rw [hxj]
      exact hmin j' hj'

namespace MultipleRandomDimensionSelect

/-- When the buffer size `numDimensions + 1` wraps around to `0`, a run of
`Begin` that gets a draw writes outside the buffer. -/
theorem Begin_wrap (s : MultipleRandomDimensionSelect) (x : Nat) (t : List Nat)
    (hwrap : (effectiveSize s.numDimensions s.dimensions + 1) % 2 ^ 64 = 0) :
    Begin s (x :: t) = .error .outOfBounds := by
  rw [Begin_unfold s (x :: t) _ rfl, hwrap, set_size_zero]
  obtain ⟨e, he⟩ : ∃ e, effectiveSize s.numDimensions s.dimensions = e + 1 :=
    ⟨effectiveSize s.numDimensions s.dimensions - 1, by omega⟩
  rw [he]
  simp [fillValues, drawUnique, uniqueCheck, writeAt]

/-- The run with requested size `0` and `2 ^ 52 + 2 ^ 27` dimensions on the
draws `0, 1, ..., 2 ^ 26`. -/
theorem Begin_big :
    Begin (setDimensions (construct 0 0) (2 ^ 52 + 2 ^ 27)) (List.range (2 ^ 26 + 1)) =
      .ok (0, { numDimensions := 2 ^ 26 + 1,
                values := List.range (2 ^ 26 + 1) ++ [SIZE_MAX], i := 0,
                dimensions := 2 ^ 52 + 2 ^ 27 }, []) := by
  have he : effectiveSize (setDimensions (construct 0 0) (2 ^ 52 + 2 ^ 27)).numDimensions
      (setDimensions (construct 0 0) (2 ^ 52 + 2 ^ 27)).dimensions = 2 ^ 26 + 1 := by
    simp only [setDimensions, construct, effectiveSize, true_or, if_true]
    exact sqrtTrunc_big
  have hrun := Begin_of_nodup (setDimensions (construct 0 0) (2 ^ 52 + 2 ^ 27))
    (List.range (2 ^ 26 + 1)) (List.nodup_range _)
    (by rw [he, List.length_range]) (by rw [he]; norm_num)
  rw [hrun, he]
  have hhead : (List.range (2 ^ 26 + 1) ++ [SIZE_MAX]).headD SIZE_MAX = 0 := by
    rw [List.range_succ_eq_map]
    rfl
  rw [hhead]
  rfl

theorem Begin_afterA_again : Begin afterA drawsA = .ok (3, afterA, [5]) :=
  rfl

theorem cyclicStream_fair :
    ∀ v, v < scenarioA.dimensions → ∀ N, ∃ p, N ≤ p ∧ cyclicStream p = v := by
  intro v hv N
  have hv' : v < 16 := hv
  refine ⟨16 * N + v, by omega, ?_⟩
  unfold cyclicStream
  omega

end MultipleRandomDimensionSelect

end mlpack.tree

namespace mlpack.tree

/-! ## The new notions on scenario A -/

/-- The idiom of the caller after a returning `Begin` is the loop over `Next`. -/
theorem idiom_of_Begin (fuel : Nat) {s s' : MultipleRandomDimensionSelect}
    {draws rest : List Nat} {first : Nat}
    (h : MultipleRandomDimensionSelect.Begin s draws = .ok (first, s', rest)) :
    idiom fuel s draws = drainFrom fuel first s' := by
  unfold idiom
  rw [h]

theorem distinctInOrder_drawsA : distinctInOrder drawsA = [3, 7, 1, 12, 5] := by
  decide

/-- Scenario A under the idiom of the caller: four values are processed, `Next` is
called four times, the cursor ends on the sentinel slot. -/
theorem idiom_scenarioA :
    idiom 5 scenarioA drawsA = some (.ok ([3, 7, 1, 12], [1, 2, 3, 4], { afterA with i := 4 })) :=
  (idiom_of_Begin 5 MultipleRandomDimensionSelect.Begin_scenarioA).trans rfl

end mlpack.tree

namespace mlpack.tree

namespace MultipleRandomDimensionSelect

/-! ## The contract of the sampler -/

/-- C1 (distinctness): whenever `Begin` returns, the slots `0 .. numDimensions - 1`
of the sample set, which are the values handed out before the sentinel, are
pairwise distinct. -/
theorem Begin_distinct (s : MultipleRandomDimensionSelect) (draws : List Nat) (first : Nat)
    (s' : MultipleRandomDimensionSelect) (rest : List Nat)
    (h : Begin s draws = .ok (first, s', rest)) :
    (s'.values.take s'.numDimensions).Nodup := by
  obtain ⟨_, acc, hfd, _, hs'⟩ := (Begin_ok_iff s draws first s' rest).1 h
  have hlen := firstDistinct_length draws [] _ acc rest hfd
  have hnd := firstDistinct_nodup draws [] _ acc rest hfd List.nodup_nil
  rw [hs']
  simp only
  rw [← hlen, List.take_left]
  simpa using hnd

theorem Begin_distinct_witness :
    Begin scenarioA drawsA = .ok (3, afterA, [5]) ∧
      (afterA.values.take afterA.numDimensions).Nodup :=
  ⟨Begin_scenarioA, Begin_distinct _ _ _ _ _ Begin_scenarioA⟩

/-- C2 (range): when every draw of the random source lies in `[0, dimensions)`,
every slot `0 .. numDimensions - 1` of the sample set left by `Begin` lies in
`[0, dimensions)`. -/
theorem Begin_range (s : MultipleRandomDimensionSelect) (draws : List Nat) (first : Nat)
    (s' : MultipleRandomDimensionSelect) (rest : List Nat)
    (hdraws : ∀ v ∈ draws, v < s.dimensions)
    (h : Begin s draws = .ok (first, s', rest)) :
    ∀ v ∈ s'.values.take s'.numDimensions, v < s.dimensions := by
  obtain ⟨_, acc, hfd, _, hs'⟩ := (Begin_ok_iff s draws first s' rest).1 h
  have hlen := firstDistinct_length draws [] _ acc rest hfd
  have hmem := firstDistinct_mem draws [] _ acc rest hfd
  rw [hs']
  simp only
  rw [← hlen, List.take_left]
  intro v hv
  exact hdraws v (hmem v hv)

theorem Begin_range_witness :
    (∀ v ∈ drawsA, v < scenarioA.dimensions) ∧
      Begin scenarioA drawsA = .ok (3, afterA, [5]) ∧
      ∀ v ∈ afterA.values.take afterA.numDimensions, v < scenarioA.dimensions :=
  ⟨by decide, Begin_scenarioA, Begin_range _ _ _ _ _ (by decide) Begin_scenarioA⟩

/-- C3 (count, counterexample): with `dimensions = 2 ^ 52 + 2 ^ 27`, requested
size `0` and the in-range draws `0, 1, ..., 2 ^ 26`, `Begin` returns and, with
the calls of `Next`, hands out `2 ^ 26 + 1` values before the sentinel, one more
than the `⌊√dimensions⌋ = 2 ^ 26` the claim promises. -/
theorem count_counterexample :
    (∀ v ∈ List.range (2 ^ 26 + 1), v < 2 ^ 52 + 2 ^ 27) ∧
      Begin (setDimensions (construct 0 0) (2 ^ 52 + 2 ^ 27)) (List.range (2 ^ 26 + 1)) =
        .ok (0, { numDimensions := 2 ^ 26 + 1,
                  values := List.range (2 ^ 26 + 1) ++ [SIZE_MAX], i := 0,
                  dimensions := 2 ^ 52 + 2 ^ 27 }, []) ∧
      (∃ vs s'', nexts (2 ^ 26 + 1)
            { numDimensions := 2 ^ 26 + 1, values := List.range (2 ^ 26 + 1) ++ [SIZE_MAX],
              i := 0, dimensions := 2 ^ 52 + 2 ^ 27 } = .ok (vs, s'') ∧
          ((0 :: vs).takeWhile fun v => decide (v ≠ SIZE_MAX)).length = 2 ^ 26 + 1) ∧
      specCount 0 (2 ^ 52 + 2 ^ 27) = 2 ^ 26 := by
  have he : effectiveSize (setDimensions (construct 0 0) (2 ^ 52 + 2 ^ 27)).numDimensions
      (setDimensions (construct 0 0) (2 ^ 52 + 2 ^ 27)).dimensions = 2 ^ 26 + 1 := by
    simp only [setDimensions, construct, effectiveSize, true_or, if_true]
    exact sqrtTrunc_big
  have hspec : specCount 0 (2 ^ 52 + 2 ^ 27) = 2 ^ 26 := by
    simp only [specCount, Nat.lt_irrefl, false_and, if_false]
    exact sqrt_big
  have hrange : ∀ v ∈ List.range (2 ^ 26 + 1), v < 2 ^ 52 + 2 ^ 27 := by
    intro v hv
    have := List.mem_range.1 hv
    omega
  have hrun : Begin (setDimensions (construct 0 0) (2 ^ 52 + 2 ^ 27))
      (List.range (2 ^ 26 + 1)) =
        .ok (0, { numDimensions := 2 ^ 26 + 1,
                  values := List.range (2 ^ 26 + 1) ++ [SIZE_MAX], i := 0,
                  dimensions := 2 ^ 52 + 2 ^ 27 }, []) := by
    have hrun := Begin_of_nodup (setDimensions (construct 0 0) (2 ^ 52 + 2 ^ 27))
      (List.range (2 ^ 26 + 1)) (List.nodup_range _)
      (by rw [he, List.length_range]) (by rw [he]; norm_num)
    rw [hrun, he]
    have hhead : (List.range (2 ^ 26 + 1) ++ [SIZE_MAX]).headD SIZE_MAX = 0 := by
      rw [List.range_succ_eq_map]
      rfl
    rw [hhead]
    rfl
  refine ⟨hrange, hrun, ?_, hspec⟩
  obtain ⟨vs, s'', hn, hc, _⟩ := yielded_count _ _ _ _ _ (fun v hv => by
    have := hrange v hv
    have hM : SIZE_MAX = 2 ^ 64 - 1 := rfl
    omega) hrun
  exact ⟨vs, s'', hn, hc⟩

/-- C3 (count, as amended): for a freshly constructed sampler with requested size
`r` whose dimension count is set to `d < 2 ^ 52`, and draws in `[0, d)`, a
returning `Begin` settles on `r` if `0 < r ≤ d` and on `⌊√d⌋` otherwise, and
`Begin` with that many calls of `Next` hands out exactly that many values
before the sentinel. -/
theorem Begin_count (r c d : Nat) (draws : List Nat) (first : Nat)
    (s' : MultipleRandomDimensionSelect) (rest : List Nat)
    (hd : d < 2 ^ 52) (hdraws : ∀ v ∈ draws, v < d)
    (h : Begin (setDimensions (construct r c) d) draws = .ok (first, s', rest)) :
    s'.numDimensions = specCount r d ∧
      ∃ vs s'', nexts (specCount r d) s' = .ok (vs, s'') ∧
        ((first :: vs).takeWhile fun v => decide (v ≠ End s')).length = specCount r d ∧
        (first :: vs).get? (specCount r d) = some (End s') := by
  obtain ⟨acc, _, _, he, _⟩ := Begin_shape _ draws first s' rest h
  have hsize : s'.numDimensions = specCount r d := by
    rw [he, specCount_eq_effectiveSize hd]
    rfl
  refine ⟨hsize, ?_⟩
  rw [← hsize]
  apply yielded_count _ draws first s' rest _ h
  intro v hv
  have := hdraws v hv
  have hM : SIZE_MAX = 2 ^ 64 - 1 := rfl
  omega

theorem Begin_count_witness :
    10 < 2 ^ 52 ∧ (∀ v ∈ drawsB, v < 10) ∧
      Begin (setDimensions (construct 20 7) 10) drawsB = .ok (3, afterB, [9, 5]) ∧
      (afterB.numDimensions = specCount 20 10 ∧
        ∃ vs s'', nexts (specCount 20 10) afterB = .ok (vs, s'') ∧
          ((3 :: vs).takeWhile fun v => decide (v ≠ End afterB)).length = specCount 20 10 ∧
          (3 :: vs).get? (specCount 20 10) = some (End afterB)) :=
  ⟨by norm_num, by decide, Begin_scenarioB,
    Begin_count 20 7 10 _ _ _ _ (by norm_num) (by decide) Begin_scenarioB⟩

/-- C4 (iteration protocol): after a returning `Begin` with effective size `e`,
`Begin` has returned slot `0`; `k ≤ e` calls of `Next` return the slots
`1 .. k` and leave the cursor at `k`, the `k`-th call returning slot `k`; so
`Begin` and `e - 1` calls of `Next` hand out the slots `0 .. e - 1` in order,
and the `e`-th call of `Next` returns the sentinel `End()`. -/
theorem Begin_Next_protocol (s : MultipleRandomDimensionSelect) (draws : List Nat) (first : Nat)
    (s' : MultipleRandomDimensionSelect) (rest : List Nat)
    (h : Begin s draws = .ok (first, s', rest)) :
    s'.values.get? 0 = some first ∧
      (∀ k, k ≤ s'.numDimensions →
        nexts k s' = .ok ((s'.values.drop 1).take k, { s' with i := k })) ∧
      (∀ k, 1 ≤ k → k ≤ s'.numDimensions →
        ∃ v, Next { s' with i := k - 1 } = .ok (v, { s' with i := k }) ∧
          s'.values.get? k = some v) ∧
      (1 ≤ s'.numDimensions →
        first :: (s'.values.drop 1).take (s'.numDimensions - 1) =
          s'.values.take s'.numDimensions) ∧
      (1 ≤ s'.numDimensions →
        Next { s' with i := s'.numDimensions - 1 } =
          .ok (End s', { s' with i := s'.numDimensions })) := by
  obtain ⟨acc, hvals, hlen, _, hb, hi, _, hfirst, _, _⟩ := Begin_shape s draws first s' rest h
  have hlast : s'.values.get? s'.numDimensions = some (End s') := by
    rw [hvals, List.get?_eq_getElem?, List.getElem?_append_right (by omega), End_eq]
    simp [hlen]
  have hcall : ∀ k, 1 ≤ k → k ≤ s'.numDimensions →
      ∃ v, Next { s' with i := k - 1 } = .ok (v, { s' with i := k }) ∧
        s'.values.get? k = some v := by
    intro k hk1 hk
    have hlt : k < s'.values.length := by
      rw [hvals]
      simp
      omega
    refine ⟨s'.values[k], ?_, by rw [List.get?_eq_getElem?, List.getElem?_eq_getElem hlt]⟩
    have := Next_eq { s' with i := k - 1 } s'.values[k]
      (by
        simp only
        rw [List.get?_eq_getElem?, Nat.sub_add_cancel hk1, List.getElem?_eq_getElem hlt])
      (by simp only; omega)
    simp only [Nat.sub_add_cancel hk1] at this
    exact this
  refine ⟨?_, fun k hk => nexts_after_Begin s draws first s' rest h k hk, hcall, ?_, ?_⟩
  · rw [hvals, ← hfirst]
    rfl
  · intro he
    rw [hvals, ← hlen, List.take_left]
    cases acc with
    | nil => simp at hlen; omega
    | cons a t =>
      simp at hfirst
      simp [hfirst]
  · intro he
    obtain ⟨v, hv, hslot⟩ := hcall s'.numDimensions he (Nat.le_refl _)
    rw [hlast] at hslot
    simp only [Option.some.injEq] at hslot
    rw [hv, hslot]

theorem Begin_Next_protocol_witness :
    Begin scenarioA drawsA = .ok (3, afterA, [5]) ∧
      (afterA.values.get? 0 = some 3 ∧
        (∀ k, k ≤ afterA.numDimensions →
          nexts k afterA = .ok ((afterA.values.drop 1).take k, { afterA with i := k })) ∧
        (∀ k, 1 ≤ k → k ≤ afterA.numDimensions →
          ∃ v, Next { afterA with i := k - 1 } = .ok (v, { afterA with i := k }) ∧
            afterA.values.get? k = some v) ∧
        (1 ≤ afterA.numDimensions →
          3 :: (afterA.values.drop 1).take (afterA.numDimensions - 1) =
            afterA.values.take afterA.numDimensions) ∧
        (1 ≤ afterA.numDimensions →
          Next { afterA with i := afterA.numDimensions - 1 } =
            .ok (End afterA, { afterA with i := afterA.numDimensions }))) :=
  ⟨Begin_scenarioA, Begin_Next_protocol _ _ _ _ _ Begin_scenarioA⟩

/-- C5 (full-size sample): when the stored size equals `dimensions = d` and the
draws lie in `[0, d)`, a returning `Begin` settles on size `d` and the first `d`
slots of the sample set are a permutation of `[0, d)`: every index below `d`
occurs exactly once. -/
theorem Begin_full_permutation (s : MultipleRandomDimensionSelect) (draws : List Nat)
    (first : Nat) (s' : MultipleRandomDimensionSelect) (rest : List Nat)
    (hr : s.numDimensions = s.dimensions)
    (hdraws : ∀ v ∈ draws, v < s.dimensions)
    (h : Begin s draws = .ok (first, s', rest)) :
    s'.numDimensions = s.dimensions ∧
      (s'.values.take s.dimensions).Perm (List.range s.dimensions) ∧
      ∀ j, j < s.dimensions → (s'.values.take s.dimensions).count j = 1 := by
  obtain ⟨acc, hvals, hlen, he, _, _, _, _, hmem, hnd⟩ := Begin_shape s draws first s' rest h
  rw [hr, effectiveSize_self] at he
  have htake : s'.values.take s.dimensions = acc := by
    rw [hvals, ← he, ← hlen, List.take_left]
  have hsub : acc ⊆ List.range s.dimensions := by
    intro v hv
    exact List.mem_range.2 (hdraws v (hmem v hv))
  have hperm : acc.Perm (List.range s.dimensions) := by
    apply (List.subperm_of_subset hnd hsub).perm_of_length_le
    rw [List.length_range, hlen, he]
  refine ⟨he, by rw [htake]; exact hperm, ?_⟩
  intro j hj
  rw [htake, hperm.count_eq]
  exact List.count_eq_one_of_mem (List.nodup_range _) (List.mem_range.2 hj)

theorem Begin_full_permutation_witness :
    scenarioC.numDimensions = scenarioC.dimensions ∧
      (∀ v ∈ drawsC, v < scenarioC.dimensions) ∧
      Begin scenarioC drawsC = .ok (3, afterC, [4]) ∧
      (afterC.numDimensions = scenarioC.dimensions ∧
        (afterC.values.take scenarioC.dimensions).Perm (List.range scenarioC.dimensions) ∧
        ∀ j, j < scenarioC.dimensions → (afterC.values.take scenarioC.dimensions).count j = 1) :=
  ⟨rfl, by decide, Begin_scenarioC,
    Begin_full_permutation _ _ _ _ _ rfl (by decide) Begin_scenarioC⟩

/-- C6 (sentinel stability): `End()` is `2 ^ 64 - 1` in every state, hence the
same in any two states, and it is the value a returning `Begin` leaves in slot
`numDimensions`, the last slot of the sample set. -/
theorem End_stable (s t : MultipleRandomDimensionSelect) (draws : List Nat) (first : Nat)
    (s' : MultipleRandomDimensionSelect) (rest : List Nat)
    (h : Begin s draws = .ok (first, s', rest)) :
    End t = 2 ^ 64 - 1 ∧ End t = End s ∧
      s'.values.length = s'.numDimensions + 1 ∧
      s'.values.get? s'.numDimensions = some (End t) := by
  obtain ⟨acc, hvals, hlen, _⟩ := Begin_shape s draws first s' rest h
  refine ⟨End_eq t, by rw [End_eq, End_eq], by rw [hvals]; simp [hlen], ?_⟩
  rw [hvals, List.get?_eq_getElem?, List.getElem?_append_right (by omega), End_eq]
  simp [hlen]

theorem End_stable_witness :
    Begin scenarioA drawsA = .ok (3, afterA, [5]) ∧
      (End afterC = 2 ^ 64 - 1 ∧ End afterC = End scenarioA ∧
        afterA.values.length = afterA.numDimensions + 1 ∧
        afterA.values.get? afterA.numDimensions = some (End afterC)) :=
  ⟨Begin_scenarioA, End_stable _ _ _ _ _ _ Begin_scenarioA⟩

/-- C7 (the sentinel is no legal index): for every dimension count `d` that fits
a `size_t` and every index `i < d`, `i` differs from `End()`; so with draws in
`[0, dimensions)` no slot `0 .. numDimensions - 1` left by `Begin` equals
`End()`, and the first slot equal to `End()` is slot `numDimensions`. -/
theorem End_not_index (s : MultipleRandomDimensionSelect) (draws : List Nat) (first : Nat)
    (s' : MultipleRandomDimensionSelect) (rest : List Nat)
    (hd : s.dimensions < 2 ^ 64)
    (hdraws : ∀ v ∈ draws, v < s.dimensions)
    (h : Begin s draws = .ok (first, s', rest)) :
    (∀ (t : MultipleRandomDimensionSelect) (d i : Nat), d < 2 ^ 64 → i < d → i ≠ End t) ∧
      (∀ v ∈ s'.values.take s'.numDimensions, v ≠ End s') ∧
      (s'.values.takeWhile fun v => decide (v ≠ End s')) = s'.values.take s'.numDimensions := by
  obtain ⟨acc, hvals, hlen, _, _, _, _, _, hmem, _⟩ := Begin_shape s draws first s' rest h
  have hE : End s' = 2 ^ 64 - 1 := End_eq s'
  have htake : s'.values.take s'.numDimensions = acc := by
    rw [hvals, ← hlen, List.take_left]
  have hne : ∀ v ∈ acc, v ≠ End s' := by
    intro v hv
    have := hdraws v (hmem v hv)
    omega
  refine ⟨?_, by rw [htake]; exact hne, ?_⟩
  · intro t d i hd' hi
    have : End t = 2 ^ 64 - 1 := End_eq t
    omega
  · rw [htake, hvals]
    have hall : ∀ a ∈ acc, (fun v => decide (v ≠ End s')) a = true := by
      intro a ha
      simpa using hne a ha
    rw [List.takeWhile_append_of_pos hall]
    simp [End_eq]

theorem End_not_index_witness :
    scenarioA.dimensions < 2 ^ 64 ∧ (∀ v ∈ drawsA, v < scenarioA.dimensions) ∧
      Begin scenarioA drawsA = .ok (3, afterA, [5]) ∧
      ((∀ (t : MultipleRandomDimensionSelect) (d i : Nat), d < 2 ^ 64 → i < d → i ≠ End t) ∧
        (∀ v ∈ afterA.values.take afterA.numDimensions, v ≠ End afterA) ∧
        (afterA.values.takeWhile fun v => decide (v ≠ End afterA)) =
          afterA.values.take afterA.numDimensions) :=
  ⟨by decide, by decide, Begin_scenarioA,
    End_not_index _ _ _ _ _ (by decide) (by decide) Begin_scenarioA⟩

/-- C8 (counterexample): a sampler constructed with requested size `0` runs
`Begin` with sixteen dimensions, which stores the size `4`; after the dimension
count is set to one hundred the next `Begin` keeps the stored `4` and hands out
four values, not the `⌊√100⌋ = 10` the claim promises for the size requested at
construction. -/
theorem recompute_counterexample :
    scenarioA = setDimensions (construct 0 7) 16 ∧
      Begin scenarioA drawsA = .ok (3, afterA, [5]) ∧
      (∀ v ∈ drawsD, v < 100) ∧
      Begin (setDimensions afterA 100) drawsD = .ok (5, afterD, [8, 99, 50, 61, 72, 83, 94]) ∧
      afterD.numDimensions = 4 ∧
      nexts 4 afterD = .ok ([20, 31, 47, End afterD], { afterD with i := 4 }) ∧
      specCount 0 100 = 10 :=
  ⟨rfl, Begin_scenarioA, by decide, Begin_afterA, rfl, rfl, specCount_zero_hundred⟩

/-- C8 (as amended): `Begin` computes the effective size from the size stored in
the state it is called in, whatever calls led to that state: after the dimension
count is set to `d < 2 ^ 52`, a returning `Begin` on draws in `[0, d)` settles on
the stored size `n` if `0 < n ≤ d` and on `⌊√d⌋` otherwise, stores that size, and
hands out that many values before the sentinel. -/
theorem Begin_recomputes (s : MultipleRandomDimensionSelect) (d : Nat) (draws : List Nat)
    (first : Nat) (s' : MultipleRandomDimensionSelect) (rest : List Nat)
    (hd : d < 2 ^ 52) (hdraws : ∀ v ∈ draws, v < d)
    (h : Begin (setDimensions s d) draws = .ok (first, s', rest)) :
    s'.numDimensions = specCount s.numDimensions d ∧ s'.dimensions = d ∧
      ∃ vs s'', nexts (specCount s.numDimensions d) s' = .ok (vs, s'') ∧
        ((first :: vs).takeWhile fun v => decide (v ≠ End s')).length =
          specCount s.numDimensions d ∧
        (first :: vs).get? (specCount s.numDimensions d) = some (End s') := by
  obtain ⟨acc, _, _, he, _, _, hdim, _⟩ := Begin_shape _ draws first s' rest h
  have hsize : s'.numDimensions = specCount s.numDimensions d := by
    rw [he, specCount_eq_effectiveSize hd]
    rfl
  refine ⟨hsize, hdim, ?_⟩
  rw [← hsize]
  apply yielded_count _ draws first s' rest _ h
  intro v hv
  have := hdraws v hv
  have hM : SIZE_MAX = 2 ^ 64 - 1 := rfl
  omega

theorem Begin_recomputes_witness :
    100 < 2 ^ 52 ∧ (∀ v ∈ drawsD, v < 100) ∧
      Begin (setDimensions afterA 100) drawsD = .ok (5, afterD, [8, 99, 50, 61, 72, 83, 94]) ∧
      (afterD.numDimensions = specCount afterA.numDimensions 100 ∧ afterD.dimensions = 100 ∧
        ∃ vs s'', nexts (specCount afterA.numDimensions 100) afterD = .ok (vs, s'') ∧
          ((5 :: vs).takeWhile fun v => decide (v ≠ End afterD)).length =
            specCount afterA.numDimensions 100 ∧
          (5 :: vs).get? (specCount afterA.numDimensions 100) = some (End afterD)) :=
  ⟨by norm_num, by decide, Begin_afterA,
    Begin_recomputes afterA 100 drawsD _ _ _ (by norm_num) (by decide) Begin_afterA⟩

/-- C9 (only the configuration survives): two states that agree on the stored
size and on the dimension count, both `size_t` values, and differ in any way in
the old buffer and the cursor, give the same run of `Begin` on the same draws:
the same first index, the same new state, the same unused draws, or the same
failure; and the cursor a returning `Begin` leaves is `0`. -/
theorem Begin_ignores_buffer (s₁ s₂ : MultipleRandomDimensionSelect) (draws : List Nat)
    (hn : s₁.numDimensions = s₂.numDimensions) (hdim : s₁.dimensions = s₂.dimensions)
    (hnt : s₁.numDimensions < 2 ^ 64) (hdt : s₁.dimensions < 2 ^ 64) :
    Begin s₁ draws = Begin s₂ draws ∧
      ∀ first s' rest, Begin s₁ draws = .ok (first, s', rest) → s'.i = 0 := by
  constructor
  · by_cases hb : effectiveSize s₁.numDimensions s₁.dimensions + 1 < 2 ^ 64
    · rw [Begin_eq s₁ draws hb, Begin_eq s₂ draws (by rw [← hn, ← hdim]; exact hb), hn, hdim]
    · have hlt := effectiveSize_lt_pow hnt hdt
      have hwrap : (effectiveSize s₁.numDimensions s₁.dimensions + 1) % 2 ^ 64 = 0 := by
        omega
      rw [Begin_unfold s₁ draws _ rfl, Begin_unfold s₂ draws _ (by rw [← hn, ← hdim]),
        hwrap, set_size_zero, set_size_zero, hdim]
  · intro first s' rest h
    obtain ⟨_, _, _, _, _, hi, _⟩ := Begin_shape s₁ draws first s' rest h
    exact hi

theorem Begin_ignores_buffer_witness :
    scenarioA_used.numDimensions = scenarioA.numDimensions ∧
      scenarioA_used.dimensions = scenarioA.dimensions ∧
      scenarioA_used.numDimensions < 2 ^ 64 ∧ scenarioA_used.dimensions < 2 ^ 64 ∧
      (Begin scenarioA_used drawsA = Begin scenarioA drawsA ∧
        ∀ first s' rest, Begin scenarioA_used drawsA = .ok (first, s', rest) → s'.i = 0) :=
  ⟨rfl, rfl, by decide, by decide,
    Begin_ignores_buffer scenarioA_used scenarioA drawsA rfl rfl (by decide) (by decide)⟩

/-- C10 (counterexample): with five dimensions and requested size five, `Begin`
settles on size five, which is not below the dimension count. -/
theorem strict_size_counterexample :
    1 ≤ scenarioC.dimensions ∧ Begin scenarioC drawsC = .ok (3, afterC, [4]) ∧
      effectiveSize scenarioC.numDimensions scenarioC.dimensions = 5 ∧
      ¬ (afterC.numDimensions < afterC.dimensions) :=
  ⟨by decide, Begin_scenarioC, effectiveSize_self 5, by decide⟩

/-- C10 (as amended): for every stored size and every dimension count that fits
a `size_t`, the effective size `Begin` computes is at most the dimension count,
and so is the size a returning `Begin` leaves in the state. -/
theorem effectiveSize_le_dimensions (s : MultipleRandomDimensionSelect) (draws : List Nat)
    (first : Nat) (s' : MultipleRandomDimensionSelect) (rest : List Nat)
    (hd : s.dimensions < 2 ^ 64)
    (h : Begin s draws = .ok (first, s', rest)) :
    effectiveSize s.numDimensions s.dimensions ≤ s.dimensions ∧
      s'.numDimensions ≤ s'.dimensions := by
  obtain ⟨_, _, _, he, _, _, hdim, _⟩ := Begin_shape s draws first s' rest h
  refine ⟨effectiveSize_le_self hd, ?_⟩
  rw [he, hdim]
  exact effectiveSize_le_self hd

theorem effectiveSize_le_dimensions_witness :
    scenarioC.dimensions < 2 ^ 64 ∧ Begin scenarioC drawsC = .ok (3, afterC, [4]) ∧
      (effectiveSize scenarioC.numDimensions scenarioC.dimensions ≤ scenarioC.dimensions ∧
        afterC.numDimensions ≤ afterC.dimensions) :=
  ⟨by decide, Begin_scenarioC,
    effectiveSize_le_dimensions _ _ _ _ _ (by decide) Begin_scenarioC⟩

/-- C12 (the `Dimensions` accessor): a sampler constructed with any requested size
has `Dimensions() = 0`; after a write of `d` through the reference the read
returns `d`, and the write changes neither the stored size nor the buffer nor
the cursor. -/
theorem Dimensions_accessor (r c d : Nat) (s : MultipleRandomDimensionSelect) :
    Dimensions (construct r c) = 0 ∧ (construct r c).numDimensions = r ∧
      Dimensions (setDimensions s d) = d ∧
      (setDimensions s d).numDimensions = s.numDimensions ∧
      (setDimensions s d).values = s.values ∧ (setDimensions s d).i = s.i :=
  ⟨rfl, rfl, rfl, rfl, rfl, rfl⟩

/-- C13 (rejection sampling is first-occurrence filtering): whenever `Begin`
returns, the slots `0 .. numDimensions - 1` are the first `numDimensions`
distinct values of the draws in order of first appearance, and the draws `Begin`
used are the part of the draws that ends with the first appearance of the last
of these values: they are followed by the unused draws, their distinct values
are exactly the slots, and their last element has not occurred before and is
the last slot.  With size `0` no draw is used. -/
theorem Begin_first_occurrences (s : MultipleRandomDimensionSelect) (draws : List Nat)
    (first : Nat) (s' : MultipleRandomDimensionSelect) (rest : List Nat)
    (h : Begin s draws = .ok (first, s', rest)) :
    ∃ used, draws = used ++ rest ∧
      s'.values.take s'.numDimensions = (distinctInOrder draws).take s'.numDimensions ∧
      ((distinctInOrder draws).take s'.numDimensions).length = s'.numDimensions ∧
      distinctInOrder used = s'.values.take s'.numDimensions ∧
      (s'.numDimensions = 0 → used = []) ∧
      (0 < s'.numDimensions →
        ∃ init x, used = init ++ [x] ∧ x ∉ init ∧
          (s'.values.take s'.numDimensions).getLast? = some x) := by
  obtain ⟨_, acc, hfd, _, hs'⟩ := (Begin_ok_iff s draws first s' rest).1 h
  have hlen := firstDistinct_length draws [] _ acc rest hfd
  obtain ⟨used, hd, hfo, hzero, hlast⟩ := firstDistinct_used draws [] _ acc rest hfd
  have hnum : s'.numDimensions = effectiveSize s.numDimensions s.dimensions := by rw [hs']
  have htake : s'.values.take s'.numDimensions = acc := by
    rw [hs']
    simp only
    rw [← hlen, List.take_left]
  obtain ⟨tail, htail⟩ := firstOccurrences_append rest used []
  have hall : (distinctInOrder draws).take s'.numDimensions = acc := by
    unfold distinctInOrder
    rw [hd, htail, hfo, hnum, ← hlen, List.take_left]
  refine ⟨used, hd, by rw [htake, hall], by rw [hall, hnum, hlen], by rw [htake]; exact hfo,
    ?_, ?_⟩
  · intro h0
    exact hzero (by rw [← hnum]; exact h0)
  · intro hpos
    obtain ⟨init, x, hu, _, hxi, hacc⟩ := hlast (by rw [← hnum]; exact hpos)
    exact ⟨init, x, hu, hxi, by rw [htake]; exact hacc⟩

theorem Begin_first_occurrences_witness :
    Begin scenarioA drawsA = .ok (3, afterA, [5]) ∧
      ∃ used, drawsA = used ++ [5] ∧
        afterA.values.take afterA.numDimensions =
          (distinctInOrder drawsA).take afterA.numDimensions ∧
        ((distinctInOrder drawsA).take afterA.numDimensions).length = afterA.numDimensions ∧
        distinctInOrder used = afterA.values.take afterA.numDimensions ∧
        (afterA.numDimensions = 0 → used = []) ∧
        (0 < afterA.numDimensions →
          ∃ init x, used = init ++ [x] ∧ x ∉ init ∧
            (afterA.values.take afterA.numDimensions).getLast? = some x) :=
  ⟨Begin_scenarioA, Begin_first_occurrences _ _ _ _ _ Begin_scenarioA⟩

/-- C14 (counterexample): with `2 ^ 64 - 1` dimensions, all of them requested, the
effective size is `2 ^ 64 - 1` and the buffer size `numDimensions + 1` wraps to
`0`.  The source `wideStream` is in range and hands out every value below the
dimension count again and again, yet `Begin` returns on no number of its draws:
with at least one draw it writes outside the empty buffer. -/
theorem termination_counterexample :
    scenarioWrap.dimensions < 2 ^ 64 ∧
      (∀ k, wideStream k < scenarioWrap.dimensions) ∧
      (∀ v, v < scenarioWrap.dimensions → ∀ N, ∃ p, N ≤ p ∧ wideStream p = v) ∧
      effectiveSize scenarioWrap.numDimensions scenarioWrap.dimensions = 2 ^ 64 - 1 ∧
      (∀ m result, Begin scenarioWrap (window wideStream 0 m) ≠ .ok result) ∧
      (∀ m, 1 ≤ m → Begin scenarioWrap (window wideStream 0 m) = .error .outOfBounds) := by
  have hdim : scenarioWrap.dimensions = 2 ^ 64 - 1 := rfl
  have he : effectiveSize scenarioWrap.numDimensions scenarioWrap.dimensions = 2 ^ 64 - 1 :=
    effectiveSize_self (2 ^ 64 - 1)
  refine ⟨by rw [hdim]; norm_num, ?_, ?_, he, ?_, ?_⟩
  · intro k
    rw [hdim]
    exact Nat.mod_lt _ (by norm_num)
  · intro v hv N
    rw [hdim] at hv
    refine ⟨(2 ^ 64 - 1) * N + v, ?_, ?_⟩
    · have : N ≤ (2 ^ 64 - 1) * N := Nat.le_mul_of_pos_left N (by norm_num)
      omega
    · unfold wideStream
      rw [Nat.mul_add_mod, Nat.mod_eq_of_lt hv]
  · intro m result hres
    have hb := Begin_ok_bound scenarioWrap _ result hres
    rw [he] at hb
    norm_num at hb
  · intro m hm
    obtain ⟨x, t, hxt⟩ := window_ne_nil wideStream 0 m hm
    rw [hxt]
    exact Begin_wrap scenarioWrap x t (by rw [he]; norm_num)

/-- C14 (as amended): for a dimension count that fits a `size_t` the effective
size is at most the dimension count, so fewer slots than the effective size
never hold every value of `[0, dimensions)`; and on a source that hands out
every value of `[0, dimensions)` again and again, `Begin` needs only finitely
many draws: from some number of draws on the run is never left waiting for a
draw, and it returns whenever the buffer size `numDimensions + 1` does not wrap
around. -/
theorem Begin_terminates (s : MultipleRandomDimensionSelect) (stream : Nat → Nat)
    (hd : s.dimensions < 2 ^ 64)
    (hfair : ∀ v, v < s.dimensions → ∀ N, ∃ p, N ≤ p ∧ stream p = v) :
    effectiveSize s.numDimensions s.dimensions ≤ s.dimensions ∧
      (∀ slots : List Nat, slots.length < effectiveSize s.numDimensions s.dimensions →
        ∃ v, v < s.dimensions ∧ v ∉ slots) ∧
      ∃ n, ∀ m, n ≤ m →
        Begin s (window stream 0 m) ≠ .error .starved ∧
        (effectiveSize s.numDimensions s.dimensions + 1 < 2 ^ 64 →
          ∃ result, Begin s (window stream 0 m) = .ok result) := by
  have hle : effectiveSize s.numDimensions s.dimensions ≤ s.dimensions :=
    effectiveSize_le_self hd
  refine ⟨hle, fun slots hs => exists_fresh _ slots (by omega), ?_⟩
  obtain ⟨m₀, acc, rest, hrun⟩ := firstDistinct_fair s.dimensions stream hfair
    (effectiveSize s.numDimensions s.dimensions) [] 0 (by simp; exact hle)
  have hok : ∀ m, m₀ + 1 ≤ m →
      effectiveSize s.numDimensions s.dimensions + 1 < 2 ^ 64 →
      ∃ result, Begin s (window stream 0 m) = .ok result := by
    intro m hm hb
    obtain ⟨j, rfl⟩ : ∃ j, m = m₀ + j := ⟨m - m₀, by omega⟩
    rw [window_append, Begin_eq s _ hb, firstDistinct_append _ _ _ _ _ _ hrun]
    exact ⟨_, rfl⟩
  refine ⟨m₀ + 1, fun m hm => ⟨?_, hok m hm⟩⟩
  by_cases hb : effectiveSize s.numDimensions s.dimensions + 1 < 2 ^ 64
  · obtain ⟨result, hres⟩ := hok m hm hb
    rw [hres]
    exact fun hcon => by cases hcon
  · have hwrap : (effectiveSize s.numDimensions s.dimensions + 1) % 2 ^ 64 = 0 := by
      omega
    obtain ⟨x, t, hxt⟩ := window_ne_nil stream 0 m (by omega)
    rw [hxt, Begin_wrap s x t hwrap]
    exact fun hcon => by cases hcon

theorem Begin_terminates_witness :
    scenarioA.dimensions < 2 ^ 64 ∧
      (∀ v, v < scenarioA.dimensions → ∀ N, ∃ p, N ≤ p ∧ cyclicStream p = v) ∧
      (effectiveSize scenarioA.numDimensions scenarioA.dimensions ≤ scenarioA.dimensions ∧
        (∀ slots : List Nat,
          slots.length < effectiveSize scenarioA.numDimensions scenarioA.dimensions →
          ∃ v, v < scenarioA.dimensions ∧ v ∉ slots) ∧
        ∃ n, ∀ m, n ≤ m →
          Begin scenarioA (window cyclicStream 0 m) ≠ .error .starved ∧
          (effectiveSize scenarioA.numDimensions scenarioA.dimensions + 1 < 2 ^ 64 →
            ∃ result, Begin scenarioA (window cyclicStream 0 m) = .ok result)) :=
  ⟨by decide, cyclicStream_fair,
    Begin_terminates scenarioA cyclicStream (by decide) cyclicStream_fair⟩

/-- C15 (counterexample): with requested size `0` and `2 ^ 52 + 2 ^ 27` dimensions
the fallback fires and `Begin` stores `2 ^ 26 + 1`, which is not
`⌊√dimensions⌋ = 2 ^ 26`. -/
theorem overwrite_counterexample :
    (setDimensions (construct 0 0) (2 ^ 52 + 2 ^ 27)).numDimensions = 0 ∧
      Begin (setDimensions (construct 0 0) (2 ^ 52 + 2 ^ 27)) (List.range (2 ^ 26 + 1)) =
        .ok (0, { numDimensions := 2 ^ 26 + 1,
                  values := List.range (2 ^ 26 + 1) ++ [SIZE_MAX], i := 0,
                  dimensions := 2 ^ 52 + 2 ^ 27 }, []) ∧
      Nat.sqrt (2 ^ 52 + 2 ^ 27) = 2 ^ 26 ∧
      effectiveSize 0 (2 ^ 52 + 2 ^ 27) ≠ Nat.sqrt (2 ^ 52 + 2 ^ 27) := by
  refine ⟨rfl, Begin_big, sqrt_big, ?_⟩
  have he : effectiveSize 0 (2 ^ 52 + 2 ^ 27) = 2 ^ 26 + 1 := by
    simp only [effectiveSize, true_or, if_true]
    exact sqrtTrunc_big
  rw [he, sqrt_big]
  norm_num

/-- C15 (as amended): for a dimension count that fits a `size_t`, a returning
`Begin` stores `(size_t) std::sqrt(dimensions)` as the size when the fallback
fires, which is `⌊√dimensions⌋` for `dimensions < 2 ^ 52`, and leaves the stored
size as it was otherwise; a second `Begin` with the same dimension count settles
on the same size as the first: the size computation is idempotent. -/
theorem Begin_size_stable (s : MultipleRandomDimensionSelect) (draws draws₂ : List Nat)
    (first first₂ : Nat) (s' s'' : MultipleRandomDimensionSelect) (rest rest₂ : List Nat)
    (hd : s.dimensions < 2 ^ 64)
    (h₁ : Begin s draws = .ok (first, s', rest))
    (h₂ : Begin s' draws₂ = .ok (first₂, s'', rest₂)) :
    ((s.numDimensions = 0 ∨ s.numDimensions > s.dimensions) →
        s'.numDimensions = sqrtTrunc s.dimensions ∧
        (s.dimensions < 2 ^ 52 → s'.numDimensions = Nat.sqrt s.dimensions)) ∧
      (¬ (s.numDimensions = 0 ∨ s.numDimensions > s.dimensions) →
        s'.numDimensions = s.numDimensions) ∧
      s'.dimensions = s.dimensions ∧
      s''.numDimensions = s'.numDimensions ∧
      effectiveSize (effectiveSize s.numDimensions s.dimensions) s.dimensions =
        effectiveSize s.numDimensions s.dimensions := by
  obtain ⟨_, _, _, he, _, _, hdim, _⟩ := Begin_shape s draws first s' rest h₁
  obtain ⟨_, _, _, he₂, _⟩ := Begin_shape s' draws₂ first₂ s'' rest₂ h₂
  refine ⟨?_, ?_, hdim, ?_, effectiveSize_idem hd⟩
  · intro hfb
    have hs : s'.numDimensions = sqrtTrunc s.dimensions := by
      rw [he]
      unfold effectiveSize
      rw [if_pos hfb]
    exact ⟨hs, fun h52 => by rw [hs, sqrtTrunc_eq_sqrt h52]⟩
  · intro hfb
    rw [he]
    unfold effectiveSize
    rw [if_neg hfb]
  · rw [he₂, hdim, he, effectiveSize_idem hd]

theorem Begin_size_stable_witness :
    scenarioA.dimensions < 2 ^ 64 ∧ Begin scenarioA drawsA = .ok (3, afterA, [5]) ∧
      Begin afterA drawsA = .ok (3, afterA, [5]) ∧
      (((scenarioA.numDimensions = 0 ∨ scenarioA.numDimensions > scenarioA.dimensions) →
          afterA.numDimensions = sqrtTrunc scenarioA.dimensions ∧
          (scenarioA.dimensions < 2 ^ 52 → afterA.numDimensions = Nat.sqrt scenarioA.dimensions)) ∧
        (¬ (scenarioA.numDimensions = 0 ∨ scenarioA.numDimensions > scenarioA.dimensions) →
          afterA.numDimensions = scenarioA.numDimensions) ∧
        afterA.dimensions = scenarioA.dimensions ∧
        afterA.numDimensions = afterA.numDimensions ∧
        effectiveSize (effectiveSize scenarioA.numDimensions scenarioA.dimensions)
            scenarioA.dimensions =
          effectiveSize scenarioA.numDimensions scenarioA.dimensions) :=
  ⟨by decide, Begin_scenarioA, Begin_afterA_again,
    Begin_size_stable scenarioA drawsA drawsA 3 3 afterA afterA [5] [5] (by decide)
      Begin_scenarioA Begin_afterA_again⟩

/-- C16 (zero dimensions): with `dimensions = 0`, whatever the stored size, the
old buffer and the cursor, `Begin` settles on size `0`, uses no draw, leaves a
sample set of one slot holding the sentinel and the cursor `0`, and returns
`End()`. -/
theorem Begin_zero_dimensions (s : MultipleRandomDimensionSelect) (draws : List Nat)
    (hd : s.dimensions = 0) :
    effectiveSize s.numDimensions s.dimensions = 0 ∧
      Begin s draws =
        .ok (End s, { numDimensions := 0, values := [End s], i := 0, dimensions := 0 },
          draws) := by
  have he : effectiveSize s.numDimensions s.dimensions = 0 := by
    rw [hd]
    exact effectiveSize_zero_dimensions _
  refine ⟨he, ?_⟩
  rw [Begin_eq s draws (by rw [he]; norm_num), he, hd, End_eq, firstDistinct_zero]
  rfl

theorem Begin_zero_dimensions_witness :
    (construct 20 7).dimensions = 0 ∧
      (effectiveSize (construct 20 7).numDimensions (construct 20 7).dimensions = 0 ∧
        Begin (construct 20 7) drawsA =
          .ok (End (construct 20 7),
            { numDimensions := 0, values := [End (construct 20 7)], i := 0, dimensions := 0 },
            drawsA)) :=
  ⟨rfl, Begin_zero_dimensions (construct 20 7) drawsA rfl⟩

/-- C17 (frame): in every state the sampler can reach, a returning `Next` adds
exactly one to the cursor and leaves the sample set, the stored size and the
dimension count as they were; a returning `Begin` leaves the dimension count as
it was.  `End` is a `const` method: its model yields a value and no state. -/
theorem Next_frame (s s' : MultipleRandomDimensionSelect) (v : Nat)
    (hs : Reachable s) (h : Next s = .ok (v, s')) :
    (s'.i = s.i + 1 ∧ s'.values = s.values ∧ s'.numDimensions = s.numDimensions ∧
        s'.dimensions = s.dimensions) ∧
      (∀ (t t' : MultipleRandomDimensionSelect) (draws rest : List Nat) (first : Nat),
        Begin t draws = .ok (first, t', rest) → t'.dimensions = t.dimensions) ∧
      (∀ t : MultipleRandomDimensionSelect, End s' = End t) := by
  obtain ⟨hget, hs'⟩ := Next_ok h
  refine ⟨?_, ?_, ?_⟩
  · rcases Reachable_cursor hs with hnil | ⟨hi, hlen⟩
    · rw [hnil] at hget
      simp at hget
    · have hmod : (s.i + 1) % 2 ^ 64 = s.i + 1 := Nat.mod_eq_of_lt (by omega)
      rw [hs', hmod]
      exact ⟨rfl, rfl, rfl, rfl⟩
  · intro t t' draws rest first hB
    obtain ⟨_, _, _, _, _, _, hdim, _⟩ := Begin_shape t draws first t' rest hB
    exact hdim
  · intro t
    rw [End_eq, End_eq]

theorem Next_frame_witness :
    Reachable afterA ∧ Next afterA = .ok (7, { afterA with i := 1 }) ∧
      ((({ afterA with i := 1 } : MultipleRandomDimensionSelect).i = afterA.i + 1 ∧
          ({ afterA with i := 1 } : MultipleRandomDimensionSelect).values = afterA.values ∧
          ({ afterA with i := 1 } : MultipleRandomDimensionSelect).numDimensions =
            afterA.numDimensions ∧
          ({ afterA with i := 1 } : MultipleRandomDimensionSelect).dimensions =
            afterA.dimensions) ∧
        (∀ (t t' : MultipleRandomDimensionSelect) (draws rest : List Nat) (first : Nat),
          Begin t draws = .ok (first, t', rest) → t'.dimensions = t.dimensions) ∧
        (∀ t : MultipleRandomDimensionSelect,
          End ({ afterA with i := 1 } : MultipleRandomDimensionSelect) = End t)) :=
  ⟨Reachable_afterA, rfl, Next_frame afterA _ 7 Reachable_afterA rfl⟩

end MultipleRandomDimensionSelect

end mlpack.tree
